import Mathlib

set_option allowUnsafeReducibility true

attribute [local semireducible] Rat.mul Rat.add Rat.sub Rat.div Rat.neg Rat.inv Rat.blt

attribute [local semireducible] Rat.normalize

set_option maxRecDepth 10000

/-!
Verification of the SOR (smart order router) core of this repository:
the A* top-K route search (`src/phase1-astar-mike.js`) and the phase-2
route splitters (`src/phase2-waterfill.js`, hill-climb module).

The JavaScript source is shallowly embedded: JS numbers are modelled as
exact rationals (ℚ), JS arrays as lists, the `BigInt` visited bitset as a
natural number, JS `Map`s as association lists in insertion order, and
`-Infinity` sentinels as `Option ℚ` with `none` standing for `-Infinity`.
A `throw` is modelled by `Except.error`.  Verbose logging, performance
counters and the object pool (`allocateNode` / `releaseNode`, whose nodes
have every field overwritten on reuse) have no observable effect and are
omitted.
-/

/-! ### Binary heaps (classes `MinHeap` / `MaxHeap`, phase1-astar-mike.js lines 142-214)

The JS `MinHeap` stores its elements in a plain array `heap` and a
comparator `compareFn : α → α → number`; `MaxHeap` is a `MinHeap` with the
negated comparator.  We embed the array as a `List α` and pass the
comparator explicitly to each operation. -/

/-- Swap two positions of a list; out-of-range indices leave the list
unchanged (the JS code only ever swaps in-range indices). -/
def heapSwap {α : Type} (l : List α) (i j : Nat) : List α :=
  match l.get? i, l.get? j with
  | some a, some b => (l.set i b).set j a
  | _, _ => l

/-- `bubbleUp` of `MinHeap` (lines 171-179): sift the element at `idx` up
while it compares below its parent.  The `fuel` argument is a structural
termination witness only: the index strictly decreases at each step, so a
fuel of `idx` (see `bubbleUp`) never runs out. -/
def bubbleUpGo {α : Type} (cmp : α → α → ℚ) : Nat → List α → Nat → List α
  | 0, l, _ => l
  | fuel + 1, l, idx =>
    if idx = 0 then l
    else
      match l.get? idx, l.get? ((idx - 1) / 2) with
      | some a, some p =>
        if 0 ≤ cmp a p then l
        else bubbleUpGo cmp fuel (heapSwap l idx ((idx - 1) / 2)) ((idx - 1) / 2)
      | _, _ => l

def bubbleUp {α : Type} (cmp : α → α → ℚ) (l : List α) (idx : Nat) : List α :=
  bubbleUpGo cmp idx l idx

/-- Compare the elements at two indices (both in range whenever the JS
code evaluates the comparison). -/
def cmpIdx {α : Type} (cmp : α → α → ℚ) (l : List α) (i j : Nat) : ℚ :=
  match l.get? i, l.get? j with
  | some a, some b => cmp a b
  | _, _ => 0

/-- The index the JS `bubbleDown` (lines 181-199) would swap with: the
smaller of the two children if one compares below the current element,
else `idx` itself (`minIdx` in the source). -/
def downTarget {α : Type} (cmp : α → α → ℚ) (l : List α) (idx : Nat) : Nat :=
  let leftIdx := 2 * idx + 1
  let rightIdx := 2 * idx + 2
  let m1 := if leftIdx < l.length ∧ cmpIdx cmp l leftIdx idx < 0 then leftIdx else idx
  if rightIdx < l.length ∧ cmpIdx cmp l rightIdx m1 < 0 then rightIdx else m1

/-- `bubbleDown` of `MinHeap`: sift the element at `idx` down while a
child compares below it.  `fuel` is a structural termination witness: the
index strictly increases and stays below the (constant) length, so a fuel
of `l.length` (see `bubbleDown`) never runs out. -/
def bubbleDownGo {α : Type} (cmp : α → α → ℚ) : Nat → List α → Nat → List α
  | 0, l, _ => l
  | fuel + 1, l, idx =>
    if downTarget cmp l idx = idx then l
    else bubbleDownGo cmp fuel (heapSwap l idx (downTarget cmp l idx))
      (downTarget cmp l idx)

def bubbleDown {α : Type} (cmp : α → α → ℚ) (l : List α) (idx : Nat) : List α :=
  bubbleDownGo cmp l.length l idx

/-- `push` (lines 156-159): append then sift up from the last slot. -/
def heapPush {α : Type} (cmp : α → α → ℚ) (l : List α) (item : α) : List α :=
  bubbleUp cmp (l ++ [item]) l.length

/-- `pop` (lines 161-169): remove the root, move the last element to the
root and sift it down.  Returns the popped element (if any) and the
remaining heap. -/
def heapPop {α : Type} (cmp : α → α → ℚ) (l : List α) : Option α × List α :=
  match l with
  | [] => (none, [])
  | [x] => (some x, [])
  | x :: y :: rest =>
    let last := (y :: rest).getLastD y
    let body := ((x :: y :: rest).dropLast).set 0 last
    (some x, bubbleDown cmp body 0)

/-- `peek` (lines 152-154). -/
def heapPeek {α : Type} (l : List α) : Option α := l.head?

/-- Stable insertion used by `stableSortBy`: `x` is placed after every
already-placed element allowed to stay before it. -/
def stableInsert {α : Type} (le : α → α → Bool) (x : α) : List α → List α
  | [] => [x]
  | y :: ys => if le y x then y :: stableInsert le x ys else x :: y :: ys

/-- A stable sort (insertion sort).  For a consistent comparator a stable
sort's output is unique, so this agrees with the JS engine's stable
`Array.prototype.sort`. -/
def stableSortBy {α : Type} (le : α → α → Bool) (l : List α) : List α :=
  l.foldl (fun acc x => stableInsert le x acc) []

/-- `toSortedArray` (lines 201-203): a stable sort of the heap array by
the negated comparator `(a, b) => -compareFn(a, b)`; `a` may stay before
`b` iff that comparator is `≤ 0`, i.e. `0 ≤ cmp a b`. -/
def heapToSortedArray {α : Type} (cmp : α → α → ℚ) (l : List α) : List α :=
  stableSortBy (fun a b => 0 ≤ cmp a b) l

/-! ### A* top-K search, `findTopKRoutesAStar` (phase1-astar-mike.js lines 508-822)

The search works on the numeric adjacency (`adjId` converted to the flat
`adjArr`), so tokens and pools appear as small integer ids.  Address
strings (`fromAddr`, `toAddr`, obtained through the `tokenToId` /
`idToAddr` bijections) and the raw `pool` reference carried on hops are
display-only mirrors of the ids and are omitted.  The wall-clock budget
check (`Date.now() - start > TIME_BUDGET_MS`) is modelled by an arbitrary
oracle `timeExceeded : Nat → Bool` of the current iteration count.
Statistics counters (`nodesExplored`, `nodesPruned`, `frontierMinPrio`,
`frontierMaxPrio`) feed logging only and are omitted; the ghost flag
`completedAny` records that the completion branch (lines 720-748, logged
at line 735) was ever reached. -/

/-- A numeric adjacency edge (see `buildNumericAdjacency`, lines 484-495;
`spotPrice`, `liquidityScore`, `reserveIn` and the `pool` reference are
not read by the search and are omitted). -/
structure AEdge where
  toId : Nat
  poolId : Nat
  logSpotPrice : ℚ
  score : ℚ
  dxCapRaw : ℚ
deriving DecidableEq, Repr

/-- One hop record of a route (lines 709-718 for search hops; the seeded
direct route of lines 610-617 carries no `dxCapRaw`, hence the
`Option`). -/
structure Hop where
  poolId : Nat
  fromId : Nat
  toId : Nat
  dxCapRaw : Option ℚ
deriving DecidableEq, Repr

/-- A search state (lines 546-555 and 763-771).  The JS state stores a
parent pointer plus the edge taken; we materialise that parent chain as
`path` (exactly what `reconstructPath` recovers by walking parents). -/
structure SState where
  nodeId : Nat
  path : List Hop
  visitedBits : Nat
  score : ℚ
  prio : ℚ
  hops : Nat
  prevNodeId : Option Nat
deriving DecidableEq, Repr

/-- An entry of the `candidates` min-heap: a completed route and its
terminal score. -/
structure Cand where
  route : List Hop
  score : ℚ
deriving DecidableEq, Repr

/-- A returned route: the JS code attaches `capRaw` directly onto the
route array (lines 802-817). -/
structure Route where
  hops : List Hop
  capRaw : ℚ
deriving DecidableEq, Repr

/-- `bitsetHas` (lines 220-222): the `BigInt` bitset is a `Nat`. -/
def bitsetHas (bitset : Nat) (idx : Nat) : Bool := bitset.testBit idx

/-- `bitsetAdd` (lines 224-226). -/
def bitsetAdd (bitset : Nat) (idx : Nat) : Nat := bitset ||| (1 <<< idx)

/-- Frontier comparator: `MaxHeap((a, b) => a.prio - b.prio)` negates its
comparator (line 212), so the heap root has the largest `prio`. -/
def cmpFrontier (a b : SState) : ℚ := b.prio - a.prio

/-- Candidates comparator: the default `(a, b) => a.score - b.score`
(line 143), a min-heap on `score`. -/
def cmpCand (a b : Cand) : ℚ := a.score - b.score

/-- JS comparison `x <= kthScore` where `kthScore` starts as `-Infinity`
(modelled by `none`). -/
def leNegInf (x : ℚ) (k : Option ℚ) : Bool :=
  match k with
  | none => false
  | some v => decide (x ≤ v)

/-- JS comparison `x > kthScore` where `kthScore` starts as `-Infinity`. -/
def gtNegInf (x : ℚ) (k : Option ℚ) : Bool :=
  match k with
  | none => true
  | some v => decide (v < x)

/-- The route-dedup key (line 727): the string
`` `${fromId}:${poolId}:${toId}` `` joined with `|`; the rendering is
injective on the id triples, so we keep the triples. -/
def routeKeyOf (r : List Hop) : List (Nat × Nat × Nat) :=
  r.map (fun h => (h.fromId, h.poolId, h.toId))

/-- `reconstructPath` (lines 578-597): walks the parent chain (our
`path`); it throws after more than `maxSteps = 100` steps. -/
def reconstructPath (path : List Hop) : Except String (List Hop) :=
  if 100 < path.length then .error "reconstructPath infinite loop" else .ok path

/-- The priority formula `g - h - gasPerHopPenalty * remHops`
(lines 544 and 699-703). -/
def statePrio (g h pen : ℚ) (remHops : Nat) : ℚ := g - h - pen * remHops

/-- The terminal score of extending a state of score `g` along a suffix
of edges: each hop adds `edge.logSpotPrice - gasPerHopPenalty`
(line 699 iterated). -/
def suffixTerminalScore (g pen : ℚ) (suffix : List AEdge) : ℚ :=
  suffix.foldl (fun s e => s + e.logSpotPrice - pen) g

/-- Search context: the arguments of `findTopKRoutesAStar` that stay
fixed during the main loop. -/
structure AStarCtx where
  adjArr : Nat → List AEdge
  heuristicArr : Nat → ℚ
  targetId : Nat
  maxHops : Nat
  topK : Nat
  beamWidth : Nat
  gasPerHopPenalty : ℚ
  timeExceeded : Nat → Bool

/-- The mutable state of the main loop.  `bestAtDepth` is the dominance
table seeded to `-Infinity` (`none`); `completedAny` is the ghost flag
described above. -/
structure AStarState where
  frontier : List SState
  candidates : List Cand
  kthScore : Option ℚ
  seenRoutes : List (List (Nat × Nat × Nat))
  bestAtDepth : Nat → Nat → Option ℚ
  completedAny : Bool

/-- Point update of the dominance table
(`bestAtDepth[nextNodeId][newHops] = newScore`, line 756). -/
def updateBAD (f : Nat → Nat → Option ℚ) (n h : Nat) (v : ℚ) : Nat → Nat → Option ℚ :=
  fun n' h' => if n' = n ∧ h' = h then some v else f n' h'

/-- `candidatesHeap.peek().score` used to refresh `kthScore`
(lines 623, 741, 746). -/
def kthAfter (cands : List Cand) : Option ℚ := (heapPeek cands).map (fun c => c.score)

/-- `if (candidatesHeap.size() === topK) kthScore = peek().score`
(lines 622-624 and 740-742). -/
def kthUpdate (topK : Nat) (cands : List Cand) (old : Option ℚ) : Option ℚ :=
  if cands.length = topK then kthAfter cands else old

/-- Candidate insertion once the dedup check has passed (lines 732-747):
record the key in `seenRoutes`, then push (below capacity) or replace the
current minimum (when strictly above `kthScore`). -/
def insertCandidate (ctx : AStarCtx) (st : AStarState) (route : List Hop)
    (newScore : ℚ) : AStarState :=
  if st.candidates.length < ctx.topK then
    { st with
      candidates := heapPush cmpCand st.candidates ⟨route, newScore⟩
      kthScore := kthUpdate ctx.topK (heapPush cmpCand st.candidates ⟨route, newScore⟩)
        st.kthScore
      seenRoutes := st.seenRoutes ++ [routeKeyOf route] }
  else if gtNegInf newScore st.kthScore then
    { st with
      candidates := heapPush cmpCand (heapPop cmpCand st.candidates).snd ⟨route, newScore⟩
      kthScore := kthAfter (heapPush cmpCand (heapPop cmpCand st.candidates).snd ⟨route, newScore⟩)
      seenRoutes := st.seenRoutes ++ [routeKeyOf route] }
  else
    { st with seenRoutes := st.seenRoutes ++ [routeKeyOf route] }

/-- `newScore = partial.score + edge.logSpotPrice - gasPerHopPenalty`
(line 699). -/
def newScoreOf (ctx : AStarCtx) (cur : SState) (edge : AEdge) : ℚ :=
  cur.score + edge.logSpotPrice - ctx.gasPerHopPenalty

/-- The child priority `prio = newScore - h(to) - gasPerHopPenalty * rem`
(lines 700-703). -/
def childPrio (ctx : AStarCtx) (cur : SState) (edge : AEdge) : ℚ :=
  statePrio (newScoreOf ctx cur edge) (ctx.heuristicArr edge.toId)
    ctx.gasPerHopPenalty (ctx.maxHops - (cur.hops + 1))

/-- The hop record `newEdge` (lines 709-718). -/
def mkHop (cur : SState) (edge : AEdge) : Hop :=
  { poolId := edge.poolId, fromId := cur.nodeId, toId := edge.toId
    dxCapRaw := some edge.dxCapRaw }

/-- The pushed child state (lines 763-771). -/
def childState (ctx : AStarCtx) (cur : SState) (edge : AEdge) : SState :=
  { nodeId := edge.toId
    path := cur.path ++ [mkHop cur edge]
    visitedBits := bitsetAdd cur.visitedBits edge.toId
    score := newScoreOf ctx cur edge
    prio := childPrio ctx cur edge
    hops := cur.hops + 1
    prevNodeId := some cur.nodeId }

/-- The completion branch (lines 720-748): reconstruct, dedup by route
key, insert.  The ghost `completedAny` flag records that this branch was
reached. -/
def completeRoute (ctx : AStarCtx) (cur : SState) (st : AStarState) (edge : AEdge) :
    Except String AStarState :=
  match reconstructPath (cur.path ++ [mkHop cur edge]) with
  | .error e => .error e
  | .ok route =>
    if routeKeyOf route ∈ st.seenRoutes then .ok { st with completedAny := true }
    else .ok (insertCandidate ctx { st with completedAny := true } route
      (newScoreOf ctx cur edge))

/-- Processing of one adjacency edge of an expanded state
(lines 687-775). -/
def processEdge (ctx : AStarCtx) (cur : SState) (st : AStarState) (edge : AEdge) :
    Except String AStarState :=
  if bitsetHas cur.visitedBits edge.toId then .ok st
  else if cur.prevNodeId = some edge.toId then .ok st
  else if edge.toId ≠ ctx.targetId ∧ ctx.topK ≤ st.candidates.length ∧
      leNegInf (childPrio ctx cur edge) st.kthScore then .ok st
  else if edge.toId = ctx.targetId then completeRoute ctx cur st edge
  else if cur.hops + 1 < ctx.maxHops then
    if leNegInf (newScoreOf ctx cur edge) (st.bestAtDepth edge.toId (cur.hops + 1)) then
      .ok st
    else
      .ok { st with
        bestAtDepth := updateBAD st.bestAtDepth edge.toId (cur.hops + 1)
          (newScoreOf ctx cur edge)
        frontier := heapPush cmpFrontier st.frontier (childState ctx cur edge) }
  else .ok st

/-- Expansion of one popped state (lines 659-775): skip exhausted states,
apply the state-level upper-bound prune, then walk its first `edgeLimit`
edges. -/
def expandState (ctx : AStarCtx) (st : AStarState) (cur : SState) :
    Except String AStarState :=
  if ctx.maxHops ≤ cur.hops then .ok st
  else if ctx.topK ≤ st.candidates.length ∧
      leNegInf (statePrio cur.score (ctx.heuristicArr cur.nodeId)
        ctx.gasPerHopPenalty (ctx.maxHops - cur.hops)) st.kthScore then .ok st
  else ((ctx.adjArr cur.nodeId).take
      (min (ctx.adjArr cur.nodeId).length (max 8 (ctx.beamWidth / 2)))).foldlM
    (processEdge ctx cur) st

/-- One expansion round (lines 656-776): pop and expand up to
`expansionLimit` states while the frontier is non-empty. -/
def expandRound (ctx : AStarCtx) (st : AStarState) : Nat → Except String AStarState
  | 0 => .ok st
  | n + 1 =>
    match heapPop cmpFrontier st.frontier with
    | (none, _) => .ok st
    | (some cur, rest) => do
      let st' ← expandState ctx { st with frontier := rest } cur
      expandRound ctx st' n

/-- The frontier cap (lines 778-783): `while (size > FRONTIER_CAP) pop`.
`fuel` is a structural termination witness: each pop shortens the list,
so a fuel of `frontier.length` (see `capFrontier`) never runs out. -/
def capFrontierGo : Nat → List SState → Nat → List SState
  | 0, frontier, _ => frontier
  | fuel + 1, frontier, cap =>
    if frontier.length ≤ cap then frontier
    else capFrontierGo fuel (heapPop cmpFrontier frontier).snd cap

def capFrontier (frontier : List SState) (cap : Nat) : List SState :=
  capFrontierGo frontier.length frontier cap

/-- The main loop (lines 631-788), with fuel
`ASTAR_MAX_ITERATIONS - iterationCount`. -/
def astarLoop (ctx : AStarCtx) (st : AStarState) (iterationCount : Nat) :
    Nat → Except String AStarState
  | 0 => .ok st
  | fuel + 1 =>
    if st.frontier = [] then .ok st
    else if (iterationCount + 1) % 100 = 0 ∧ ctx.timeExceeded (iterationCount + 1) then
      .ok st
    else
      match heapPeek st.frontier with
      | none => .ok st
      | some topFrontier =>
        if ctx.topK ≤ st.candidates.length ∧
            leNegInf topFrontier.prio st.kthScore then .ok st
        else do
          let st' ← expandRound ctx st (min st.frontier.length ctx.beamWidth)
          astarLoop ctx
            { st' with frontier := capFrontier st'.frontier (max (ctx.beamWidth * 32) (ctx.topK * 128)) }
            (iterationCount + 1) fuel

/-- The source state pushed at lines 546-555. -/
def initialSearchState (ctx : AStarCtx) (sourceId : Nat) : SState :=
  { nodeId := sourceId
    path := []
    visitedBits := bitsetAdd 0 sourceId
    score := 0
    prio := statePrio 0 (ctx.heuristicArr sourceId) ctx.gasPerHopPenalty ctx.maxHops
    hops := 0
    prevNodeId := none }

/-- The state before the first loop iteration: source state pushed, then
the direct source→target seed (lines 606-629). -/
def baseSearchState (ctx : AStarCtx) (sourceId : Nat) : AStarState :=
  { frontier := heapPush cmpFrontier [] (initialSearchState ctx sourceId)
    candidates := []
    kthScore := none
    seenRoutes := []
    bestAtDepth := fun _ _ => none
    completedAny := false }

/-- The hop recorded for the direct source→target seed route
(lines 609-619); note it carries no `dxCapRaw`. -/
def directSeedHop (ctx : AStarCtx) (sourceId : Nat) (edge : AEdge) : Hop :=
  { poolId := edge.poolId, fromId := sourceId, toId := ctx.targetId
    dxCapRaw := none }

def seedState (ctx : AStarCtx) (sourceId : Nat) : AStarState :=
  match (ctx.adjArr sourceId).find? (fun e => e.toId == ctx.targetId) with
  | none => baseSearchState ctx sourceId
  | some edge =>
    if routeKeyOf [directSeedHop ctx sourceId edge] ∈
        (baseSearchState ctx sourceId).seenRoutes then baseSearchState ctx sourceId
    else
      { baseSearchState ctx sourceId with
        candidates := heapPush cmpCand (baseSearchState ctx sourceId).candidates
          ⟨[directSeedHop ctx sourceId edge],
           edge.logSpotPrice - ctx.gasPerHopPenalty⟩
        kthScore := kthUpdate ctx.topK
          (heapPush cmpCand (baseSearchState ctx sourceId).candidates
            ⟨[directSeedHop ctx sourceId edge],
             edge.logSpotPrice - ctx.gasPerHopPenalty⟩)
          (baseSearchState ctx sourceId).kthScore
        seenRoutes := (baseSearchState ctx sourceId).seenRoutes ++
          [routeKeyOf [directSeedHop ctx sourceId edge]] }

/-- Post-processing fold for `capRaw` (lines 802-817): minimum of the
defined `dxCapRaw` fields, `none` playing the role of `Infinity`. -/
def routeCapRawAcc (r : List Hop) : Option ℚ :=
  r.foldl
    (fun acc hop =>
      match hop.dxCapRaw with
      | some c => some (match acc with | some m => min m c | none => c)
      | none => acc)
    none

/-- `route.capRaw` (line 813): the fold result, or the `1e18` sentinel
when every hop was uncapped. -/
def capRawOf (r : List Hop) : ℚ := (routeCapRawAcc r).getD ((10 : ℚ) ^ 18)

instance {e a : Type} [DecidableEq e] [DecidableEq a] : DecidableEq (Except e a) :=
  fun x y =>
    match x, y with
    | .error u, .error v =>
      if h : u = v then isTrue (by rw [h]) else isFalse (by intro hc; injection hc; contradiction)
    | .error _, .ok _ => isFalse (by intro hc; exact Except.noConfusion hc)
    | .ok _, .error _ => isFalse (by intro hc; exact Except.noConfusion hc)
    | .ok u, .ok v =>
      if h : u = v then isTrue (by rw [h]) else isFalse (by intro hc; injection hc; contradiction)

def ASTAR_MAX_ITERATIONS : Nat := 50000

/-- `findTopKRoutesAStar` (lines 508-822).  Takes the numeric adjacency
as a function, the heuristic array, the source and (inside `ctx`) the
target token ids; returns the candidate routes sorted best-first, each
with its attached `capRaw`.  `Except.error` models the only `throw`
reachable from well-formed calls (`reconstructPath`). -/
def findTopKRoutesAStar (ctx : AStarCtx) (sourceId : Nat) :
    Except String (List Route) :=
  if sourceId = ctx.targetId then .ok []
  else
    match astarLoop ctx (seedState ctx sourceId) 0 ASTAR_MAX_ITERATIONS with
    | .error e => .error e
    | .ok stF =>
      .ok ((heapToSortedArray cmpCand stF.candidates).map
        (fun c => { hops := c.route, capRaw := capRawOf c.route }))

/-! ### Reverse-Dijkstra heuristic, `computeReverseHeuristic`
(phase1-astar-mike.js lines 232-336)

JS `Map`s are modelled as association lists with `Map.set` semantics:
updating an existing key keeps its position, a new key is appended.  The
heuristic cache (a pure memo) is omitted; we work at token-id level (the
address↔id maps are bijections). -/

def alookup {β : Type} (m : List (Nat × β)) (k : Nat) : Option β :=
  (m.find? (fun p => p.fst == k)).map (fun p => p.snd)

def aset {β : Type} (m : List (Nat × β)) (k : Nat) (v : β) : List (Nat × β) :=
  if (m.find? (fun p => p.fst == k)).isSome then
    m.map (fun p => if p.fst == k then (k, v) else p)
  else m ++ [(k, v)]

/-- A reversed edge with the clamped weight
`max(0, -logSpotPrice + gasPerHopPenalty)` (lines 260-266). -/
structure RevEdge where
  toId : Nat
  weight : ℚ
deriving DecidableEq, Repr

/-- Building the reverse adjacency (lines 254-268), in map iteration
order. -/
def buildReverseAdj (adj : List (Nat × List AEdge)) (pen : ℚ) :
    List (Nat × List RevEdge) :=
  adj.foldl
    (fun racc entry =>
      entry.snd.foldl
        (fun racc e =>
          let arr := (alookup racc e.toId).getD []
          aset racc e.toId (arr ++ [⟨entry.fst, max 0 (-e.logSpotPrice + pen)⟩]))
        racc)
    []

/-- An entry of the Dijkstra priority queue (line 271,
`MinHeap((a, b) => a.dist - b.dist)`). -/
structure PQEntry where
  node : Nat
  dist : ℚ
deriving DecidableEq, Repr

def cmpPQ (a b : PQEntry) : ℚ := a.dist - b.dist

def MAX_NODES : Nat := 50000

def MAX_ITERATIONS : Nat := 50000

/-- The Dijkstra loop (lines 279-297).  A popped entry staler than the
recorded distance is skipped without counting against either budget.
`fuel` is a structural termination witness only: total pops are bounded
by total insertions, and every insertion beyond the first belongs to a
relaxation of one of the at most `MAX_ITERATIONS` non-stale steps, each
pushing at most the total reverse-edge count; `dijkstraFuel` is such a
bound, so the fuel never runs out. -/
def dijkstraLoopGo (radj : List (Nat × List RevEdge)) :
    Nat → List (Nat × ℚ) → List PQEntry → Nat → Nat → List (Nat × ℚ)
  | 0, dist, _, _, _ => dist
  | fuel + 1, dist, pq, nodesExplored, iterations =>
    if pq = [] ∨ ¬nodesExplored < MAX_NODES ∨ ¬iterations < MAX_ITERATIONS then
      dist
    else
      match heapPop cmpPQ pq with
      | (none, _) => dist
      | (some entry, rest) =>
        let stale :=
          match alookup dist entry.node with
          | some dv => decide (dv < entry.dist)
          | none => false
        if stale then dijkstraLoopGo radj fuel dist rest nodesExplored iterations
        else
          let step := ((alookup radj entry.node).getD []).foldl
            (fun (acc : List (Nat × ℚ) × List PQEntry) e =>
              let newDist := entry.dist + e.weight
              let better :=
                match alookup acc.fst e.toId with
                | some dv => decide (newDist < dv)
                | none => true
              if better then
                (aset acc.fst e.toId newDist, heapPush cmpPQ acc.snd ⟨e.toId, newDist⟩)
              else acc)
            (dist, rest)
          dijkstraLoopGo radj fuel step.fst step.snd (nodesExplored + 1) (iterations + 1)

def dijkstraFuel (radj : List (Nat × List RevEdge)) : Nat :=
  1 + MAX_ITERATIONS * (1 + radj.foldl (fun n entry => n + entry.snd.length) 0)

/-- `computeReverseHeuristic` (lines 246-336): Dijkstra from the target
over the reversed graph, returning the distance map. -/
def computeReverseHeuristic (adj : List (Nat × List AEdge)) (targetAddr : Nat)
    (pen : ℚ) : List (Nat × ℚ) :=
  dijkstraLoopGo (buildReverseAdj adj pen) (dijkstraFuel (buildReverseAdj adj pen))
    (aset [] targetAddr 0) (heapPush cmpPQ [] ⟨targetAddr, 0⟩) 0 0

/-- The flat heuristic array built from the distance map
(`mapHeuristicToIds` plus the `Float64Array` fill, lines 320-345):
missing or non-finite entries become `0`. -/
def heuristicArrOfDist (dist : List (Nat × ℚ)) : Nat → ℚ :=
  fun id => (alookup dist id).getD 0

/-- The flat adjacency array (`adjArr`, lines 529-532): entries default
to the empty edge list. -/
def adjArrOf (adj : List (Nat × List AEdge)) : Nat → List AEdge :=
  fun id => (alookup adj id).getD []

/-! ### Path predicates and search invariants -/

/-- The hop sequence chains, starting at `start`: each hop leaves the
node the previous hop reached. -/
def chainOK (start : Nat) : List Hop → Bool
  | [] => true
  | h :: t => h.fromId == start && chainOK h.toId t

/-- The node a chained hop sequence ends at. -/
def endNode (start : Nat) : List Hop → Nat
  | [] => start
  | h :: t => endNode h.toId t

/-- All token ids touched by a path, in order. -/
def pathNodes (start : Nat) (p : List Hop) : List Nat :=
  start :: p.map (fun h => h.toId)

/-- The hop was built from an edge of the adjacency at its `fromId`. -/
def HopPoolAdj (ctx : AStarCtx) (hop : Hop) : Prop :=
  ∃ e ∈ ctx.adjArr hop.fromId, e.poolId = hop.poolId ∧ e.toId = hop.toId

/-- Invariant of every state held in the frontier. -/
structure StateInv (ctx : AStarCtx) (sourceId : Nat) (s : SState) : Prop where
  chain : chainOK sourceId s.path = true
  ends : endNode sourceId s.path = s.nodeId
  len : s.path.length = s.hops
  hopsLt : s.hops < ctx.maxHops
  bits : ∀ i : Nat, bitsetHas s.visitedBits i = true ↔ i ∈ pathNodes sourceId s.path
  nodup : (pathNodes sourceId s.path).Nodup
  targetNotIn : ctx.targetId ∉ pathNodes sourceId s.path
  hopsAdj : ∀ hop ∈ s.path, HopPoolAdj ctx hop
  hopsCap : ∀ hop ∈ s.path, hop.dxCapRaw.isSome = true

/-- Invariant of every completed route held in the candidates heap. -/
structure RouteInv (ctx : AStarCtx) (sourceId : Nat) (r : List Hop) : Prop where
  nonempty : r ≠ []
  chain : chainOK sourceId r = true
  ends : endNode sourceId r = ctx.targetId
  len : r.length ≤ ctx.maxHops
  nodup : (pathNodes sourceId r).Nodup
  hopsAdj : ∀ hop ∈ r, HopPoolAdj ctx hop
  caps : (∀ hop ∈ r, hop.dxCapRaw.isSome = true) ∨ (∀ hop ∈ r, hop.dxCapRaw = none)

/-- The main-loop invariant. -/
structure AStarInv (ctx : AStarCtx) (sourceId : Nat) (st : AStarState) : Prop where
  frontierInv : ∀ s ∈ st.frontier, StateInv ctx sourceId s
  candInv : ∀ c ∈ st.candidates, RouteInv ctx sourceId c.route
  candKeys : (st.candidates.map (fun c => routeKeyOf c.route)).Nodup
  candSeen : ∀ c ∈ st.candidates, routeKeyOf c.route ∈ st.seenRoutes
  kthNonempty : st.kthScore.isSome = true → st.candidates ≠ []
  seenNonempty : st.seenRoutes ≠ [] → st.candidates ≠ []
  completedSeen : st.completedAny = true → st.seenRoutes ≠ []

def edge02 : AEdge :=
  { toId := 2, poolId := 0, logSpotPrice := 1/10, score := 1/10, dxCapRaw := 50 }

def edge01 : AEdge :=
  { toId := 1, poolId := 1, logSpotPrice := 1, score := 1, dxCapRaw := 60 }

def edge12 : AEdge :=
  { toId := 2, poolId := 2, logSpotPrice := 1, score := 1, dxCapRaw := 70 }

def cexAdj : List (Nat × List AEdge) :=
  [(0, [edge02, edge01]), (1, [edge12]), (2, [])]

def cexDist : List (Nat × ℚ) := computeReverseHeuristic cexAdj 2 0

def cexCtx : AStarCtx :=
  { adjArr := adjArrOf cexAdj, heuristicArr := heuristicArrOfDist cexDist,
    targetId := 2, maxHops := 2, topK := 1, beamWidth := 32,
    gasPerHopPenalty := 0, timeExceeded := fun _ => false }

def cexRoutes : List Route :=
  [{ hops := [{ poolId := 0, fromId := 0, toId := 2, dxCapRaw := none }],
     capRaw := 10 ^ 18 }]

/-- Pool functionality of the adjacency: from a fixed token, all edges
carrying the same pool id lead to the same destination token.  The
adjacency produced by `buildAdjacencyMap` (lines 364-417) has this shape:
each pool contributes, for a given origin token, only edges to
`pool.getOtherToken(origin)` — `tokens.find(t => t.addr !== tokenAddr)` —
which is a single token per (pool, origin) pair, and every pool object is
assigned a fresh numeric id (line 366). -/
def PoolFunctional (ctx : AStarCtx) : Prop :=
  ∀ u : Nat, ∀ e1 ∈ ctx.adjArr u, ∀ e2 ∈ ctx.adjArr u,
    e1.poolId = e2.poolId → e1.toId = e2.toId

def c6Ctx : AStarCtx :=
  { adjArr := adjArrOf cexAdj, heuristicArr := heuristicArrOfDist cexDist,
    targetId := 2, maxHops := 2, topK := 2, beamWidth := 32,
    gasPerHopPenalty := 0, timeExceeded := fun _ => false }

def c6Routes : List Route :=
  [ { hops := [{ poolId := 1, fromId := 0, toId := 1, dxCapRaw := some 60 },
               { poolId := 2, fromId := 1, toId := 2, dxCapRaw := some 70 }],
      capRaw := 60 },
    { hops := [{ poolId := 0, fromId := 0, toId := 2, dxCapRaw := none }],
      capRaw := 10 ^ 18 } ]

/-- The final loop state of a `findTopKRoutesAStar` call. -/
def astarFinalState (ctx : AStarCtx) (sourceId : Nat) : Except String AStarState :=
  astarLoop ctx (seedState ctx sourceId) 0 ASTAR_MAX_ITERATIONS

/-- A 102-token line graph 0 → 1 → ⋯ → 101: the only complete route has
101 hops, one more than `reconstructPath`'s `maxSteps = 100`. -/
def lineCtx : AStarCtx :=
  { adjArr := fun i => if i < 101 then
      [{ toId := i + 1, poolId := i, logSpotPrice := 0, score := 0, dxCapRaw := 1 }] else [],
    heuristicArr := fun _ => 0,
    targetId := 101, maxHops := 101, topK := 1, beamWidth := 32,
    gasPerHopPenalty := 0, timeExceeded := fun _ => false }

def c1TopState : SState :=
  { nodeId := 0, path := [], visitedBits := 1, score := 0, prio := 0, hops := 0, prevNodeId := none }

def c1SeedHop : Hop :=
  { poolId := 0, fromId := 0, toId := 2, dxCapRaw := none }

def c1StopState : AStarState :=
  { frontier := [c1TopState],
    candidates := [{ route := [c1SeedHop], score := 1/10 }],
    kthScore := some (1/10),
    seenRoutes := [[(0, 0, 2)]],
    bestAtDepth := fun _ _ => none,
    completedAny := true }

def mkCexState (i : Nat) : SState :=
  { nodeId := i, path := [], visitedBits := 0, score := 0, prio := i, hops := 0,
    prevNodeId := none }

/-- A frontier of 129 states with pairwise distinct priorities `0..128`,
one over the cap `max(beamWidth·32, topK·128) = 128` for
`beamWidth = 1, topK = 1`. -/
def cexFrontier : List SState :=
  (List.range 129).foldl (fun h i => heapPush cmpFrontier h (mkCexState i)) []

/-- `probeSize = Math.min(reserveIn * rel, dxCap)` with `rel = 0.001`,
`dxCap = 1e9` (buildAdjacencyMap, lines 388-390). -/
def probeSize (reserveIn : ℚ) : ℚ := min (reserveIn * (1 / 1000)) (10 ^ 9)

/-- `priceImpact = probeSize / (reserveIn + probeSize)` (line 391). -/
def priceImpact (reserveIn : ℚ) : ℚ :=
  probeSize reserveIn / (reserveIn + probeSize reserveIn)

/-- The shallow-pool drop test `if (priceImpact > 0.05) continue`
(line 392). -/
def probeFilterDrops (reserveIn : ℚ) : Bool := decide (priceImpact reserveIn > 5 / 100)

/-! ### Swap simulation (`simulateSwap` / `simulateRoute`,
phase1-astar-mike.js lines 828-879) and the phase-2 response curves
(phase2-waterfill.js).

JS floats are modelled as exact rationals.  Token addresses are numeric
ids.  `isNaN`/`isFinite` guards cannot fire over `ℚ` (division by zero
yields `0` rather than `NaN`/`Infinity`) and are noted where they occur
in the source. -/

structure PToken where
  addr : Nat
  reserveNum : ℚ
deriving DecidableEq, Repr

structure PPool where
  fee : ℚ
  tokens : List PToken
deriving DecidableEq, Repr

structure RHop where
  pool : PPool
  fromAddr : Nat
  toAddr : Nat
  poolId : Nat
deriving DecidableEq, Repr

/-- `simulateSwap` (lines 828-861): constant-product output with fee. -/
def simulateSwap (pool : PPool) (tokenInAddr tokenOutAddr : Nat) (amountIn : ℚ) : ℚ :=
  match pool.tokens.find? (fun t => t.addr == tokenInAddr),
        pool.tokens.find? (fun t => t.addr == tokenOutAddr) with
  | some tokenIn, some tokenOut =>
    if tokenIn.reserveNum = 0 ∨ tokenOut.reserveNum = 0 then 0
    else
      (tokenOut.reserveNum * (amountIn * (1 - pool.fee))) /
        (tokenIn.reserveNum + amountIn * (1 - pool.fee))
  | _, _ => 0

/-- `simulateRoute` (lines 863-879): thread the amount through the hops,
stopping early when it hits `0`. -/
def simulateRoute : List RHop → ℚ → ℚ
  | [], cur => cur
  | hop :: rest, cur =>
    let nxt := simulateSwap hop.pool hop.fromAddr hop.toAddr cur
    if nxt = 0 then 0 else simulateRoute rest nxt

/-- `validateRoute` (phase2-waterfill.js lines 67-82): nonempty, within
`maxHops`, no repeated pool id, and a nonzero probe output at
`epsilon = 1e-6` (the `isNaN`/`isFinite` checks cannot fire over `ℚ`). -/
def validateRoute (route : List RHop) (maxHops : Nat) : Bool :=
  !route.isEmpty && route.length ≤ maxHops &&
    (route.map (fun h => h.poolId)).Nodup &&
    !(simulateRoute route (1 / 10 ^ 6) == 0)

/-- The 18 sample fractions of `generateSamplePoints` (lines 4-10). -/
def samplePercentages : List ℚ :=
  [1/1000, 25/10000, 5/1000, 75/10000, 1/100, 15/1000, 2/100, 3/100,
   5/100, 75/1000, 1/10, 15/100, 2/10, 3/10, 4/10, 1/2, 75/100, 1]

def generateSamplePoints (totalInputRaw : ℚ) : List ℚ :=
  samplePercentages.map (fun pct => totalInputRaw * pct)

structure CurvePoint where
  inputRaw : ℚ
  outputRaw : ℚ
  marginalRaw : ℚ
deriving DecidableEq, Repr

/-- The sampling loop of `buildResponseCurve` (lines 203-241), carrying
the previously recorded point (`curve.length > 0` ↔ `prev = some p`,
and `prevOutputRaw = p.outputRaw`).  The `inputHuman`/`outputHuman`
display fields are omitted.  When the gas-adjusted output falls below
the previous output, the point is recorded with the previous output
(zero marginal) and sampling stops (`capacityReached`). -/
def buildResponseCurveGo (route : List RHop) (gas : ℚ) :
    Option CurvePoint → List ℚ → List CurvePoint
  | _, [] => []
  | none, inputRaw :: rest =>
    let out0 := max 0 (simulateRoute route inputRaw - gas)
    let pt : CurvePoint :=
      { inputRaw := inputRaw, outputRaw := out0
        marginalRaw := if 0 < inputRaw then out0 / inputRaw else 0 }
    pt :: buildResponseCurveGo route gas (some pt) rest
  | some p, inputRaw :: rest =>
    let out0 := max 0 (simulateRoute route inputRaw - gas)
    if out0 < p.outputRaw then
      [{ inputRaw := inputRaw, outputRaw := p.outputRaw
         marginalRaw := if 0 < inputRaw - p.inputRaw then
           (p.outputRaw - p.outputRaw) / (inputRaw - p.inputRaw) else 0 }]
    else
      let pt : CurvePoint :=
        { inputRaw := inputRaw, outputRaw := out0
          marginalRaw := if 0 < inputRaw - p.inputRaw then
            (out0 - p.outputRaw) / (inputRaw - p.inputRaw) else 0 }
      pt :: buildResponseCurveGo route gas (some pt) rest

/-- `buildResponseCurve` (lines 193-243) on raw input, with
`gasCostRaw = route.length * gasPerHopInOutputTokensRaw`. -/
def buildResponseCurve (route : List RHop) (totalInputRaw gasPerHopRaw : ℚ) :
    List CurvePoint :=
  buildResponseCurveGo route (route.length * gasPerHopRaw) none
    (generateSamplePoints totalInputRaw)

def curvePool : PPool := { fee := 0, tokens := [⟨0, 10 ^ 6⟩, ⟨1, 10 ^ 3⟩] }

def curveRoute : List RHop :=
  [{ pool := curvePool, fromAddr := 0, toAddr := 1, poolId := 0 }]

/-! ### The PQ water-fill allocator, `allocateWaterfillPQ`
(phase2-waterfill.js lines 470-650)

JS arrays indexed by route are `List ℚ` read through `List.getD · · 0`
and written through `List.set` (both match JS semantics at in-range
indices; all indices used are in range).  The JS `Set` of active routes
is a duplicate-free `List Nat` in insertion order (`Set.add` appends,
`Set.delete` filters, iteration follows insertion order). -/

def defaultPoint : CurvePoint := { inputRaw := 0, outputRaw := 0, marginalRaw := 0 }

/-- `interpolateMarginal` (lines 357-389).  The index scan
`while (curve[i].inputRaw < x) i++` is the length of the matching
prefix; the `isFinite`/`isNaN` guard cannot fire over `ℚ`. -/
def interpolateMarginal (curve : List CurvePoint) (allocatedSoFarRaw : ℚ) : ℚ :=
  if allocatedSoFarRaw ≤ 0 then
    ((curve.head?).map (fun p => p.marginalRaw)).getD 0
  else
    if (curve.takeWhile (fun p => p.inputRaw < allocatedSoFarRaw)).length ≥
        curve.length then
      ((curve.getLast?).map (fun p => p.marginalRaw)).getD 0
    else
      if (curve.takeWhile (fun p => p.inputRaw < allocatedSoFarRaw)).length = 0 then
        (curve.getD 0 defaultPoint).marginalRaw
      else
        (fun i =>
          (fun p0 p1 =>
            if p1.inputRaw - p0.inputRaw = 0 then p0.marginalRaw
            else p0.marginalRaw +
              ((allocatedSoFarRaw - p0.inputRaw) / (p1.inputRaw - p0.inputRaw)) *
                (p1.marginalRaw - p0.marginalRaw))
          (curve.getD (i - 1) defaultPoint) (curve.getD i defaultPoint))
        (curve.takeWhile (fun p => p.inputRaw < allocatedSoFarRaw)).length

/-- The 60-step bisection of `findAllocationForMarginal`
(lines 402-412), carried as a `(low, high)` pair. -/
def famGo (curve : List CurvePoint) (targetMarginal : ℚ) :
    Nat → ℚ × ℚ → ℚ × ℚ
  | 0, lh => lh
  | n + 1, (low, high) =>
    if targetMarginal < interpolateMarginal curve ((low + high) / 2) then
      famGo curve targetMarginal n ((low + high) / 2, high)
    else
      famGo curve targetMarginal n (low, (low + high) / 2)

/-- `findAllocationForMarginal` (lines 390-415): returns the
`(inputRaw, reachable)` pair. -/
def findAllocationForMarginal (curve : List CurvePoint)
    (currentInputRaw targetMarginal capacityRaw tol : ℚ) : ℚ × Bool :=
  if interpolateMarginal curve currentInputRaw - tol ≤ targetMarginal then
    (currentInputRaw, true)
  else if targetMarginal ≤ interpolateMarginal curve capacityRaw + tol then
    (capacityRaw, false)
  else
    (min (famGo curve targetMarginal 60 (currentInputRaw, capacityRaw)).2 capacityRaw,
     true)

structure WFUpdate where
  idx : Nat
  nextInput : ℚ
  delta : ℚ
  reachable : Bool
deriving DecidableEq, Repr

structure WFTotals where
  totalDelta : ℚ
  updates : List WFUpdate
  saturated : List Nat
  allReachable : Bool
deriving DecidableEq, Repr

/-- One route's contribution inside `computeTotalsForLevel`
(lines 427-459). -/
def totalsStep (curves : List (List CurvePoint)) (allocations capacities : List ℚ)
    (levelMarginal tol : ℚ) (acc : WFTotals) (idx : Nat) : WFTotals :=
  (fun (fam : ℚ × Bool) =>
    (fun (nextInput delta : ℚ) =>
      if fam.2 then
        { totalDelta := acc.totalDelta + delta
          updates := acc.updates ++
            [{ idx := idx, nextInput := nextInput, delta := delta, reachable := fam.2 }]
          saturated := acc.saturated
          allReachable := acc.allReachable }
      else
        { totalDelta := acc.totalDelta + max 0 (capacities.getD idx 0 - allocations.getD idx 0)
          updates := acc.updates ++
            [{ idx := idx, nextInput := capacities.getD idx 0
               delta := max 0 (capacities.getD idx 0 - allocations.getD idx 0)
               reachable := fam.2 }]
          saturated := if capacities.getD idx 0 - allocations.getD idx 0 ≤ tol then
              acc.saturated ++ [idx] else acc.saturated
          allReachable := false })
    (min fam.1 (capacities.getD idx 0))
    (max 0 (min fam.1 (capacities.getD idx 0) - allocations.getD idx 0)))
  (findAllocationForMarginal (curves.getD idx []) (allocations.getD idx 0)
    levelMarginal (capacities.getD idx 0) tol)

/-- `computeTotalsForLevel` (lines 416-469). -/
def computeTotalsForLevel (activeIndices : List Nat) (levelMarginal : ℚ)
    (curves : List (List CurvePoint)) (allocations capacities : List ℚ)
    (tol : ℚ) : WFTotals :=
  activeIndices.foldl (totalsStep curves allocations capacities levelMarginal tol)
    { totalDelta := 0, updates := [], saturated := [], allReachable := true }

structure ApplyRes where
  alloc : List ℚ
  margs : List ℚ
  used : ℚ
  newlySat : List Nat
deriving Repr

/-- `applyUpdates` (lines 542-563): walk the updates, clamp each delta
to the remaining `limit`, skip sub-tolerance deltas, refresh the
marginal of a touched route, record saturations, and stop early once
`limit` is (almost) used up. -/
def applyUpdatesGo (curves : List (List CurvePoint)) (effCaps : List ℚ)
    (effTol limit : ℚ) : List WFUpdate → List ℚ → List ℚ → ℚ → List Nat → ApplyRes
  | [], alloc, margs, used, sat =>
    { alloc := alloc, margs := margs, used := used, newlySat := sat }
  | u :: rest, alloc, margs, used, sat =>
    if min u.delta (max 0 (limit - used)) ≤ effTol then
      applyUpdatesGo curves effCaps effTol limit rest alloc margs used sat
    else
      (fun (alloc' : List ℚ) (used' : ℚ) =>
        (fun (margs' : List ℚ) (sat' : List Nat) =>
          if limit - effTol ≤ used' then
            { alloc := alloc', margs := margs', used := used', newlySat := sat' }
          else
            applyUpdatesGo curves effCaps effTol limit rest alloc' margs' used' sat')
        (margs.set u.idx
          (interpolateMarginal (curves.getD u.idx []) (alloc'.getD u.idx 0)))
        (if (!u.reachable && effCaps.getD u.idx 0 - alloc'.getD u.idx 0 ≤ effTol) ∨
            effCaps.getD u.idx 0 - alloc'.getD u.idx 0 ≤ effTol then
          sat ++ [u.idx] else sat))
      (alloc.set u.idx (alloc.getD u.idx 0 + min u.delta (max 0 (limit - used))))
      (used + min u.delta (max 0 (limit - used)))

structure WFState where
  allocations : List ℚ
  currentMarginals : List ℚ
  active : List Nat
  pointer : Nat
  iterations : Nat
  routesSaturated : Nat
  remaining : ℚ
deriving Repr

structure WFParams where
  curves : List (List CurvePoint)
  totalInputRaw : ℚ
  effCaps : List ℚ
  effTol : ℚ
  sortedIndices : List Nat
deriving Repr

/-- `addNextRoute` (lines 507-518): advance the pointer over
`sortedIndices` (we recurse over the dropped suffix) until a route with
workable capacity and marginal is found and added to the active set. -/
def addNextGo (effCaps margs : List ℚ) (effTol : ℚ) (active : List Nat) :
    List Nat → Nat → Nat × List Nat × Bool
  | [], p => (p, active, false)
  | idx :: rest, p =>
    if effCaps.getD idx 0 ≤ effTol ∨ margs.getD idx 0 ≤ effTol then
      addNextGo effCaps margs effTol active rest (p + 1)
    else
      (p + 1, if idx ∈ active then active else active ++ [idx], true)

/-- The `newlySaturated` removal loop (lines 575-582 and 613-620):
`if (active.delete(idx)) routesSaturated++`. -/
def removeSaturated (sat : List Nat) (active : List Nat) (rs : Nat) :
    List Nat × Nat :=
  sat.foldl
    (fun acc idx =>
      if idx ∈ acc.1 then (acc.1.filter (fun j => j != idx), acc.2 + 1) else acc)
    (active, rs)

/-- Application of a totals object to the state: run `applyUpdates`,
update `remaining` (with the resync `remaining = max(0, T - Σ alloc)`
when nothing was applied, lines 571-574 and 609-612), and process the
newly saturated routes. -/
def wfApply (P : WFParams) (st : WFState) (totals : WFTotals) (limit : ℚ) : WFState :=
  (fun (r : ApplyRes) =>
    (fun (ar : List Nat × Nat) =>
      { st with
        allocations := r.alloc
        currentMarginals := r.margs
        remaining := if r.used ≤ P.effTol then
            max 0 (P.totalInputRaw - r.alloc.sum)
          else st.remaining - r.used
        active := ar.1
        routesSaturated := ar.2 })
    (removeSaturated r.newlySat st.active st.routesSaturated))
  (applyUpdatesGo P.curves P.effCaps P.effTol limit totals.updates
    st.allocations st.currentMarginals 0 [])

/-- The end-of-iteration saturation sweep (lines 633-643), iterating a
snapshot of the active set. -/
def wfSweepAR (P : WFParams) (alloc margs : List ℚ) (snapshot active : List Nat)
    (rs : Nat) : List Nat × Nat :=
  snapshot.foldl
    (fun acc idx =>
      if P.effCaps.getD idx 0 - alloc.getD idx 0 ≤ P.effTol ∨
          margs.getD idx 0 ≤ P.effTol then
        (acc.1.filter (fun j => j != idx), acc.2 + 1)
      else acc)
    (active, rs)

def wfSweep (P : WFParams) (st : WFState) : WFState :=
  (fun (ar : List Nat × Nat) => { st with active := ar.1, routesSaturated := ar.2 })
    (wfSweepAR P st.allocations st.currentMarginals st.active st.active
      st.routesSaturated)

/-- The 60-step level bisection of the over-demand branch
(lines 587-607). -/
def levelSearchGo (activeIndices : List Nat) (curves : List (List CurvePoint))
    (alloc effCaps : List ℚ) (effTol remaining : ℚ) :
    Nat → ℚ → ℚ → WFTotals → WFTotals
  | 0, _, _, best => best
  | n + 1, low, high, best =>
    if remaining + effTol <
        (computeTotalsForLevel activeIndices ((low + high) / 2) curves alloc
          effCaps effTol).totalDelta then
      levelSearchGo activeIndices curves alloc effCaps effTol remaining n
        ((low + high) / 2) high best
    else
      levelSearchGo activeIndices curves alloc effCaps effTol remaining n
        low ((low + high) / 2)
        (computeTotalsForLevel activeIndices ((low + high) / 2) curves alloc
          effCaps effTol)

/-- `Math.max(...)` over a nonempty list (`0` for the empty list, which
never occurs at the call sites). -/
def listMaxD : List ℚ → ℚ
  | [] => 0
  | x :: xs => xs.foldl max x

/-- The body of one pass of the main `while` loop (lines 520-644) after
the `active.size === 0` case: pick the target level, compute the totals,
apply them directly or after the level bisection, then either stop or
sweep and continue. -/
def wfMainStep (P : WFParams) (st : WFState) : WFState :=
  (fun (currentLevel : ℚ) =>
    (fun (targetLevel : ℚ) =>
      (fun (totalsAtTarget : WFTotals) =>
        if totalsAtTarget.totalDelta ≤ st.remaining + P.effTol ∧
            totalsAtTarget.allReachable then
          (fun (st2 : WFState) =>
            if totalsAtTarget.allReachable ∧ st2.pointer < P.sortedIndices.length ∧
                P.effTol < st2.remaining then
              (fun (an : Nat × List Nat × Bool) =>
                { st2 with pointer := an.1, active := an.2.1 })
              (addNextGo P.effCaps st2.currentMarginals P.effTol st2.active
                (P.sortedIndices.drop st2.pointer) st2.pointer)
            else st2)
          (wfApply P st totalsAtTarget (min st.remaining totalsAtTarget.totalDelta))
        else
          (fun (best : WFTotals) =>
            wfApply P st best (min st.remaining best.totalDelta))
          (levelSearchGo st.active P.curves st.allocations P.effCaps P.effTol
            st.remaining 60 targetLevel currentLevel totalsAtTarget))
      (computeTotalsForLevel st.active targetLevel P.curves st.allocations
        P.effCaps P.effTol))
    (if st.pointer < P.sortedIndices.length then
      (fun t => if currentLevel < t then currentLevel else t)
        (st.currentMarginals.getD (P.sortedIndices.getD st.pointer 0) 0)
    else if currentLevel < 0 then currentLevel else 0))
  (listMaxD (st.active.map (fun idx => st.currentMarginals.getD idx 0)))

/-- The main loop (lines 520-644) on fuel `maxIter - iterations`. -/
def wfLoop (P : WFParams) : Nat → WFState → WFState
  | 0, st => st
  | fuel + 1, st =>
    if st.remaining ≤ P.effTol then st
    else
      (fun (st1 : WFState) =>
        if st1.active = [] then
          (fun (an : Nat × List Nat × Bool) =>
            if an.2.2 then
              wfLoop P fuel { st1 with pointer := an.1, active := an.2.1 }
            else { st1 with pointer := an.1, active := an.2.1 })
          (addNextGo P.effCaps st1.currentMarginals P.effTol st1.active
            (P.sortedIndices.drop st1.pointer) st1.pointer)
        else
          (fun (st2 : WFState) =>
            if st2.remaining ≤ P.effTol then st2
            else wfLoop P fuel (wfSweep P st2))
          (wfMainStep P st1))
      { st with iterations := st.iterations + 1 }

structure WFResult where
  allocations : List ℚ
  totalAllocated : ℚ
  iterations : Nat
  routesSaturated : Nat
deriving Repr

/-- `allocateWaterfillPQ` (lines 470-650). -/
def allocateWaterfillPQ (curves : List (List CurvePoint)) (totalInputRaw : ℚ)
    (capacities : Option (List ℚ)) (maxIter : Nat) (tol : ℚ) : WFResult :=
  if curves.length = 0 then
    { allocations := [], totalAllocated := 0, iterations := 0, routesSaturated := 0 }
  else
    (fun (effTol : ℚ) (effCaps : List ℚ) =>
      (fun (margs : List ℚ) =>
        (fun (sorted : List Nat) =>
          (fun (stF : WFState) =>
            { allocations := stF.allocations
              totalAllocated := totalInputRaw - stF.remaining
              iterations := stF.iterations
              routesSaturated := stF.routesSaturated })
          (wfLoop
            { curves := curves, totalInputRaw := totalInputRaw,
              effCaps := effCaps, effTol := effTol, sortedIndices := sorted }
            maxIter
            { allocations := curves.map (fun _ => 0), currentMarginals := margs,
              active := [], pointer := 0, iterations := 0, routesSaturated := 0,
              remaining := totalInputRaw }))
        (stableSortBy (fun a b => decide (margs.getD b 0 ≤ margs.getD a 0))
          ((List.range curves.length).filter
            (fun i => decide (effTol < effCaps.getD i 0) &&
              decide (effTol < margs.getD i 0)))))
      (curves.map (fun c => interpolateMarginal c 0)))
    (max (max tol (totalInputRaw * (1 / 10 ^ 12))) (1 / 10 ^ 9))
    (match capacities with
      | some caps =>
        if caps.length = curves.length then caps
        else curves.map (fun c => ((c.getLast?).map (fun p => p.inputRaw)).getD 0)
      | none => curves.map (fun c => ((c.getLast?).map (fun p => p.inputRaw)).getD 0))

/-- `normalizeAllocations` (lines 768-808). -/
def normalizeAllocations (allocations : List ℚ) (totalInputRaw minPct : ℚ) :
    List ℚ :=
  if |allocations.sum - totalInputRaw| ≤ max 1 (totalInputRaw * (1 / 10 ^ 9)) ∧
      allocations.all (fun amt =>
        amt == 0 || decide (totalInputRaw * minPct ≤ amt)) then
    allocations
  else
    (fun (clean : List ℚ) (dustTotal : ℚ) =>
      (fun (clean2 : List ℚ) =>
        if clean2.sum = 0 then clean2
        else clean2.map (fun amt => amt * (totalInputRaw / clean2.sum)))
      (if 0 < dustTotal then
        clean.set (clean.indexOf (listMaxD clean))
          (clean.getD (clean.indexOf (listMaxD clean)) 0 + dustTotal)
      else clean))
    (allocations.map (fun amt =>
      if amt < totalInputRaw * minPct ∧ 0 < amt then 0 else amt))
    ((allocations.filter (fun amt =>
      decide (amt < totalInputRaw * minPct) && decide (0 < amt))).sum)

/-! ### The hill-climb splitter, `optimizeRouteSplittingHillClimb`
(phase2-waterfill.js, hill-climb module, lines 1482-1715)

The allocation loop state carries `allocationsRaw`, the sorted
`allocationEntries`, `currentOutput`, the iteration counter and the
`improved` flag.  A trial move is evaluated on the transferred copy of
the allocation vector (the JS mutate-evaluate-revert is side-effect free
over exact rationals), and one `hcStep` models one pass of the `while`
loop — it is the identity once the loop condition fails, so iterating it
`n` times reproduces the state after `n` passes. -/

/-- `computeTotalOutputRaw` (lines 1482-1492): skip non-positive
allocations, clamp each route's gas-adjusted output at `0`, and sum. -/
def computeTotalOutputRaw (routes : List (List RHop)) (alloc : List ℚ)
    (gasPerHopRaw : ℚ) : ℚ :=
  ((List.range routes.length).map (fun i =>
    if alloc.getD i 0 ≤ 0 then 0
    else max 0 (simulateRoute (routes.getD i []) (alloc.getD i 0) -
      (routes.getD i []).length * gasPerHopRaw))).sum

structure HCEntry where
  routeIdx : Nat
  amountRaw : ℚ
deriving DecidableEq, Repr

/-- `recomputeEntries` (lines 1603-1612): positive allocations in index
order, then stably sorted descending by amount. -/
def recomputeEntries (alloc : List ℚ) : List HCEntry :=
  stableSortBy (fun a b => decide (b.amountRaw ≤ a.amountRaw))
    ((List.range alloc.length).filterMap (fun i =>
      if 0 < alloc.getD i 0 then some { routeIdx := i, amountRaw := alloc.getD i 0 }
      else none))

/-- The `allocationsRaw[from] -= δ; allocationsRaw[to] += δ` transfer
(lines 1632-1633 and 1646-1647). -/
def transferAlloc (alloc : List ℚ) (i j : Nat) (δ : ℚ) : List ℚ :=
  (fun a1 => a1.set j (a1.getD j 0 + δ)) (alloc.set i (alloc.getD i 0 - δ))

/-- The best-move scan (lines 1624-1644): every source entry holding at
least `δ`, every distinct destination route, strict improvement over the
best gain so far (starting at `0`). -/
def scanMoves (routes : List (List RHop)) (gas : ℚ) (alloc : List ℚ)
    (currentOutput δ : ℚ) (entries : List HCEntry) : ℚ × Option (Nat × Nat) :=
  entries.foldl
    (fun acc ent =>
      if ent.amountRaw < δ then acc
      else (List.range routes.length).foldl
        (fun acc2 toIdx =>
          if toIdx = ent.routeIdx then acc2
          else if acc2.1 <
              computeTotalOutputRaw routes (transferAlloc alloc ent.routeIdx toIdx δ)
                gas - currentOutput then
            (computeTotalOutputRaw routes (transferAlloc alloc ent.routeIdx toIdx δ)
                gas - currentOutput,
             some (ent.routeIdx, toIdx))
          else acc2)
        acc)
    (0, none)

structure HCState where
  allocationsRaw : List ℚ
  entries : List HCEntry
  currentOutput : ℚ
  iterations : Nat
  improved : Bool
deriving Repr

/-- The overflow fold (lines 1656-1665): when more than
`maxActiveRoutes` entries remain, fold the smallest allocation into the
largest (when they are distinct routes) and recompute. -/
def hcFold (routes : List (List RHop)) (gas : ℚ) (maxActive : Nat)
    (st : HCState) : HCState :=
  if maxActive < st.entries.length then
    match st.entries.getLast?, st.entries.head? with
    | some smallest, some largest =>
      if smallest.routeIdx ≠ largest.routeIdx then
        (fun a2 => { st with
          allocationsRaw := a2
          entries := recomputeEntries a2
          currentOutput := computeTotalOutputRaw routes a2 gas })
        ((fun a1 => a1.set smallest.routeIdx 0)
          (st.allocationsRaw.set largest.routeIdx
            (st.allocationsRaw.getD largest.routeIdx 0 +
              st.allocationsRaw.getD smallest.routeIdx 0)))
      else st
    | _, _ => st
  else st

/-- One pass of the main `while` loop (lines 1618-1668), the identity
when the loop condition has failed. -/
def hcStep (routes : List (List RHop)) (gas δ : ℚ)
    (maxActive maxIterations : Nat) (st : HCState) : HCState :=
  if st.improved = true ∧ st.iterations < maxIterations ∧
      st.entries.length ≤ maxActive then
    (fun (st1 : HCState) =>
      match (scanMoves routes gas st1.allocationsRaw st1.currentOutput δ
          st1.entries).2 with
      | some mv =>
        if 0 < (scanMoves routes gas st1.allocationsRaw st1.currentOutput δ
            st1.entries).1 then
          (fun alloc' =>
            hcFold routes gas maxActive
              { st1 with
                allocationsRaw := alloc'
                currentOutput := st1.currentOutput +
                  (scanMoves routes gas st1.allocationsRaw st1.currentOutput δ
                    st1.entries).1
                improved := true
                entries := recomputeEntries alloc' })
          (transferAlloc st1.allocationsRaw mv.1 mv.2 δ)
        else st1
      | none => st1)
    { st with iterations := st.iterations + 1, improved := false }
  else st

def hcIterate (routes : List (List RHop)) (gas δ : ℚ)
    (maxActive maxIterations : Nat) : Nat → HCState → HCState
  | 0, st => st
  | n + 1, st =>
    hcIterate routes gas δ maxActive maxIterations n
      (hcStep routes gas δ maxActive maxIterations st)

/-- The initial allocation state (lines 1597-1601): everything on route
`0`. -/
def hcInit (routes : List (List RHop)) (T gas : ℚ) : HCState :=
  (fun alloc0 => { allocationsRaw := alloc0
                   entries := [{ routeIdx := 0, amountRaw := T }]
                   currentOutput := computeTotalOutputRaw routes alloc0 gas
                   iterations := 0
                   improved := true })
  ((List.replicate routes.length (0 : ℚ)).set 0 T)

def HCInv (numRoutes : Nat) (T : ℚ) (st : HCState) : Prop :=
  st.allocationsRaw.length = numRoutes ∧
  (∀ e ∈ st.entries, e.routeIdx < numRoutes) ∧
  st.allocationsRaw.sum = T

def c10Pool2 : PPool := { fee := 0, tokens := [⟨0, 10 ^ 6⟩, ⟨1, 10 ^ 6⟩] }

def c10Route2 : List RHop :=
  [{ pool := c10Pool2, fromAddr := 0, toAddr := 1, poolId := 1 }]

theorem downTarget_cases {α : Type} (cmp : α → α → ℚ) (l : List α) (idx : Nat) :
    downTarget cmp l idx = idx ∨
      (idx < downTarget cmp l idx ∧ downTarget cmp l idx < l.length) := by
  unfold downTarget
  dsimp only
  split_ifs with h1 h2 h3
  · right; exact ⟨by omega, h2.1⟩
  · right; exact ⟨by omega, h1.1⟩
  · right; exact ⟨by omega, h3.1⟩
  · left; rfl

theorem heapSwap_length {α : Type} (l : List α) (i j : Nat) :
    (heapSwap l i j).length = l.length := by
  unfold heapSwap
  cases l.get? i <;> cases l.get? j <;> simp

/-- Replacing an occurring element and consing the old value permutes:
if `xs.get? k = some b` then `b :: xs.set k x ~ x :: xs`. -/
theorem cons_set_perm {α : Type} :
    ∀ (xs : List α) (k : Nat) (b x : α), xs.get? k = some b →
      (b :: xs.set k x).Perm (x :: xs) := by
  intro xs
  induction xs with
  | nil => intro k b x h; simp at h
  | cons y ys ih =>
    intro k b x hget
    match k with
    | 0 =>
      simp only [List.get?, Option.some.injEq] at hget
      subst hget
      simp only [List.set]
      exact List.Perm.swap x y ys
    | k'+1 =>
      simp only [List.get?] at hget
      simp only [List.set]
      have step := ih k' b x hget
      exact ((List.Perm.swap y b _).trans (List.Perm.cons y step)).trans
        (List.Perm.swap x y ys)

theorem set_set_perm {α : Type} :
    ∀ (l : List α) (i j : Nat) (a b : α), l.get? i = some a → l.get? j = some b →
      ((l.set i b).set j a).Perm l := by
  intro l
  induction l with
  | nil => intro i j a b hi _; simp at hi
  | cons x xs ih =>
    intro i j a b ha hb
    match i, j with
    | 0, 0 =>
      simp only [List.get?, Option.some.injEq] at ha hb
      subst ha
      simp [List.set]
    | 0, j'+1 =>
      simp only [List.get?, Option.some.injEq] at ha hb
      subst ha
      simp only [List.set]
      exact cons_set_perm xs j' b x hb
    | i'+1, 0 =>
      simp only [List.get?, Option.some.injEq] at ha hb
      subst hb
      simp only [List.set]
      exact cons_set_perm xs i' a x ha
    | i'+1, j'+1 =>
      simp only [List.get?] at ha hb
      simp only [List.set]
      exact List.Perm.cons x (ih i' j' a b ha hb)

theorem heapSwap_perm {α : Type} (l : List α) (i j : Nat) :
    (heapSwap l i j).Perm l := by
  unfold heapSwap
  cases hi : l.get? i with
  | none => cases l.get? j <;> simp
  | some a =>
    cases hj : l.get? j with
    | none => simp
    | some b =>
      simp only
      exact set_set_perm l i j a b hi hj

theorem bubbleUpGo_perm {α : Type} (cmp : α → α → ℚ) :
    ∀ (fuel : Nat) (l : List α) (idx : Nat), (bubbleUpGo cmp fuel l idx).Perm l := by
  intro fuel
  induction fuel with
  | zero => intro l idx; exact List.Perm.refl l
  | succ fuel ih =>
    intro l idx
    rw [bubbleUpGo]
    split
    · exact List.Perm.refl l
    · cases l.get? idx with
      | none => cases l.get? ((idx - 1) / 2) <;> exact List.Perm.refl l
      | some a =>
        cases l.get? ((idx - 1) / 2) with
        | none => exact List.Perm.refl l
        | some p =>
          simp only
          split
          · exact List.Perm.refl l
          · exact (ih _ _).trans (heapSwap_perm l idx ((idx - 1) / 2))

theorem bubbleUp_perm {α : Type} (cmp : α → α → ℚ) (l : List α) (idx : Nat) :
    (bubbleUp cmp l idx).Perm l :=
  bubbleUpGo_perm cmp idx l idx

theorem bubbleDownGo_perm {α : Type} (cmp : α → α → ℚ) :
    ∀ (fuel : Nat) (l : List α) (idx : Nat), (bubbleDownGo cmp fuel l idx).Perm l := by
  intro fuel
  induction fuel with
  | zero => intro l idx; exact List.Perm.refl l
  | succ fuel ih =>
    intro l idx
    rw [bubbleDownGo]
    split
    · exact List.Perm.refl l
    · exact (ih _ _).trans (heapSwap_perm l idx _)

theorem bubbleDown_perm {α : Type} (cmp : α → α → ℚ) (l : List α) (idx : Nat) :
    (bubbleDown cmp l idx).Perm l :=
  bubbleDownGo_perm cmp l.length l idx

theorem heapPush_perm {α : Type} (cmp : α → α → ℚ) (l : List α) (item : α) :
    (heapPush cmp l item).Perm (item :: l) := by
  unfold heapPush
  exact (bubbleUp_perm cmp (l ++ [item]) l.length).trans
    (List.perm_append_singleton item l)

theorem heapPop_fst {α : Type} (cmp : α → α → ℚ) (l : List α) :
    (heapPop cmp l).fst = l.head? := by
  unfold heapPop
  match l with
  | [] => rfl
  | [x] => rfl
  | x :: y :: rest => rfl

theorem heapPop_snd_perm_tail {α : Type} (cmp : α → α → ℚ) (l : List α) :
    (heapPop cmp l).snd.Perm l.tail := by
  unfold heapPop
  match l with
  | [] => simp
  | [x] => simp
  | x :: y :: rest =>
    simp only [List.tail]
    refine (bubbleDown_perm cmp _ 0).trans ?_
    -- body = ((x :: y :: rest).dropLast).set 0 last  where last is the final element
    have hdrop : (x :: y :: rest).dropLast = x :: (y :: rest).dropLast := by
      simp [List.dropLast]
    rw [hdrop]
    simp only [List.set]
    -- goal: (last :: (y::rest).dropLast).Perm (y :: rest)
    have : (y :: rest).dropLast ++ [(y :: rest).getLastD y] = y :: rest := by
      have h1 : (y :: rest).getLastD y = (y :: rest).getLast (by simp) := by
        simp [List.getLastD_eq_getLast?, List.getLast?_eq_getLast]
      rw [h1]
      exact List.dropLast_append_getLast (by simp)
    calc ((y :: rest).getLastD y :: (y :: rest).dropLast).Perm
          ((y :: rest).dropLast ++ [(y :: rest).getLastD y]) :=
          (List.perm_append_singleton _ _).symm
      _ = y :: rest := this

theorem heapPop_snd_length {α : Type} (cmp : α → α → ℚ) (l : List α) :
    (heapPop cmp l).snd.length = l.length - 1 := by
  have h := (heapPop_snd_perm_tail cmp l).length_eq
  rw [h, List.length_tail]

theorem heapPop_fst_mem {α : Type} {cmp : α → α → ℚ} {l : List α} {a : α}
    (h : (heapPop cmp l).fst = some a) : a ∈ l := by
  rw [heapPop_fst] at h
  exact List.mem_of_mem_head? h

theorem mem_of_mem_heapPop_snd {α : Type} {cmp : α → α → ℚ} {l : List α} {a : α}
    (h : a ∈ (heapPop cmp l).snd) : a ∈ l := by
  have := (heapPop_snd_perm_tail cmp l).mem_iff.mp h
  exact List.mem_of_mem_tail this

theorem mem_of_mem_heapPush {α : Type} {cmp : α → α → ℚ} {l : List α} {item a : α}
    (h : a ∈ heapPush cmp l item) : a ∈ l ∨ a = item := by
  have h2 := (heapPush_perm cmp l item).mem_iff.mp h
  rcases List.mem_cons.mp h2 with h' | h'
  · right; exact h'
  · left; exact h'

theorem stableInsert_perm {α : Type} (le : α → α → Bool) (x : α) :
    ∀ (l : List α), (stableInsert le x l).Perm (x :: l) := by
  intro l
  induction l with
  | nil => exact List.Perm.refl [x]
  | cons y ys ih =>
    rw [stableInsert]
    split
    · exact (List.Perm.cons y ih).trans (List.Perm.swap x y ys)
    · exact List.Perm.refl _

theorem stableSortBy_perm {α : Type} (le : α → α → Bool) (l : List α) :
    (stableSortBy le l).Perm l := by
  have key : ∀ (l acc : List α),
      (l.foldl (fun acc x => stableInsert le x acc) acc).Perm (acc ++ l) := by
    intro l
    induction l with
    | nil => intro acc; simp
    | cons x xs ih =>
      intro acc
      rw [List.foldl_cons]
      refine (ih (stableInsert le x acc)).trans ?_
      have h1 : (stableInsert le x acc ++ xs).Perm ((x :: acc) ++ xs) :=
        (stableInsert_perm le x acc).append_right xs
      refine h1.trans ?_
      simp only [List.cons_append]
      exact List.perm_middle.symm
  have h := key l []
  simpa using h

theorem heapToSortedArray_perm {α : Type} (cmp : α → α → ℚ) (l : List α) :
    (heapToSortedArray cmp l).Perm l :=
  stableSortBy_perm _ l

theorem bitsetHas_add (b i j : Nat) :
    bitsetHas (bitsetAdd b i) j = (bitsetHas b j || (i == j)) := by
  unfold bitsetHas bitsetAdd
  rw [Nat.testBit_or]
  congr 1
  have h1 : (1 : Nat) <<< i = 2 ^ i := by
    rw [Nat.shiftLeft_eq, one_mul]
  rw [h1, Nat.testBit_two_pow]
  by_cases h : i = j <;> simp [h]

theorem bitsetHas_zero (j : Nat) : bitsetHas 0 j = false := by
  unfold bitsetHas
  exact Nat.zero_testBit j

theorem chainOK_append_one (start : Nat) (p : List Hop) (h : Hop) :
    chainOK start (p ++ [h]) =
      (chainOK start p && (h.fromId == endNode start p)) := by
  induction p generalizing start with
  | nil => simp [chainOK, endNode, Bool.and_comm]
  | cons x t ih =>
    simp only [List.cons_append, chainOK, endNode, List.append_eq, ih, Bool.and_assoc]

theorem endNode_append_one (start : Nat) (p : List Hop) (h : Hop) :
    endNode start (p ++ [h]) = h.toId := by
  induction p generalizing start with
  | nil => simp [endNode]
  | cons x t ih => simp only [List.cons_append, endNode, List.append_eq, ih]

theorem pathNodes_append_one (start : Nat) (p : List Hop) (h : Hop) :
    pathNodes start (p ++ [h]) = pathNodes start p ++ [h.toId] := by
  simp [pathNodes]

theorem except_bind_ok {A B : Type} {x : Except String A} {g : A → Except String B}
    {s : B} : (x >>= g) = .ok s ↔ ∃ m, x = .ok m ∧ g m = .ok s := by
  cases x with
  | error e => simp [Bind.bind, Except.bind]
  | ok a => simp [Bind.bind, Except.bind]

theorem insertCandidate_pieces {ctx : AStarCtx} {sourceId : Nat} {st : AStarState}
    {route : List Hop} {newScore : ℚ}
    (hc : ∀ c ∈ st.candidates, RouteInv ctx sourceId c.route)
    (hk : (st.candidates.map (fun c => routeKeyOf c.route)).Nodup)
    (hs : ∀ c ∈ st.candidates, routeKeyOf c.route ∈ st.seenRoutes)
    (hkth : st.kthScore.isSome = true → st.candidates ≠ [])
    (hroute : RouteInv ctx sourceId route)
    (hnotseen : routeKeyOf route ∉ st.seenRoutes) :
    (∀ c ∈ (insertCandidate ctx st route newScore).candidates,
        RouteInv ctx sourceId c.route) ∧
    ((insertCandidate ctx st route newScore).candidates.map
        (fun c => routeKeyOf c.route)).Nodup ∧
    (∀ c ∈ (insertCandidate ctx st route newScore).candidates,
        routeKeyOf c.route ∈ (insertCandidate ctx st route newScore).seenRoutes) ∧
    (insertCandidate ctx st route newScore).frontier = st.frontier ∧
    (insertCandidate ctx st route newScore).bestAtDepth = st.bestAtDepth ∧
    (insertCandidate ctx st route newScore).completedAny = st.completedAny ∧
    (insertCandidate ctx st route newScore).seenRoutes
      = st.seenRoutes ++ [routeKeyOf route] ∧
    (insertCandidate ctx st route newScore).candidates ≠ [] := by
  unfold insertCandidate
  split_ifs with h1 h2
  · -- push below capacity
    have hperm := heapPush_perm cmpCand st.candidates ⟨route, newScore⟩
    refine ⟨?_, ?_, ?_, rfl, rfl, rfl, rfl, ?_⟩
    · intro c hcmem
      rcases mem_of_mem_heapPush hcmem with h | h
      · exact hc c h
      · subst h; exact hroute
    · have hmapperm := hperm.map (fun c => routeKeyOf c.route)
      rw [hmapperm.nodup_iff]
      simp only [List.map_cons, List.nodup_cons]
      refine ⟨?_, hk⟩
      intro hmem
      rcases List.mem_map.mp hmem with ⟨c, hcmem, hckey⟩
      exact hnotseen (hckey ▸ hs c hcmem)
    · intro c hcmem
      rcases mem_of_mem_heapPush hcmem with h | h
      · exact List.mem_append_left _ (hs c h)
      · subst h; exact List.mem_append_right _ (List.mem_singleton_self _)
    · intro hnil
      dsimp only at hnil
      have := hperm.length_eq
      rw [hnil] at this
      simp at this
  · -- replace the current minimum
    have hrestperm := heapPop_snd_perm_tail cmpCand st.candidates
    have hperm := heapPush_perm cmpCand (heapPop cmpCand st.candidates).snd
      ⟨route, newScore⟩
    refine ⟨?_, ?_, ?_, rfl, rfl, rfl, rfl, ?_⟩
    · intro c hcmem
      rcases mem_of_mem_heapPush hcmem with h | h
      · exact hc c (mem_of_mem_heapPop_snd h)
      · subst h; exact hroute
    · have hmapperm := hperm.map (fun c => routeKeyOf c.route)
      rw [hmapperm.nodup_iff]
      simp only [List.map_cons, List.nodup_cons]
      constructor
      · intro hmem
        rcases List.mem_map.mp hmem with ⟨c, hcmem, hckey⟩
        exact hnotseen (hckey ▸ hs c (mem_of_mem_heapPop_snd hcmem))
      · have htailperm := hrestperm.map (fun c => routeKeyOf c.route)
        rw [htailperm.nodup_iff, List.map_tail]
        exact (List.tail_sublist _).nodup hk
    · intro c hcmem
      rcases mem_of_mem_heapPush hcmem with h | h
      · exact List.mem_append_left _ (hs c (mem_of_mem_heapPop_snd h))
      · subst h; exact List.mem_append_right _ (List.mem_singleton_self _)
    · intro hnil
      dsimp only at hnil
      have := hperm.length_eq
      rw [hnil] at this
      simp at this
  · -- score too low: only seenRoutes is extended
    refine ⟨hc, hk, ?_, rfl, rfl, rfl, rfl, ?_⟩
    · intro c hcmem
      exact List.mem_append_left _ (hs c hcmem)
    · -- here candidates.length ≥ topK and the new score is not above kthScore;
      -- if candidates were empty, kthScore would be none and gtNegInf would be true
      intro hnil
      cases hkthv : st.kthScore with
      | none => rw [hkthv] at h2; exact h2 rfl
      | some v =>
        have := hkth (by rw [hkthv]; rfl)
        exact this hnil

theorem reconstructPath_ok {p r : List Hop} (h : reconstructPath p = .ok r) :
    r = p ∧ p.length ≤ 100 := by
  unfold reconstructPath at h
  split at h
  · cases h
  · rename_i hle
    cases h
    exact ⟨rfl, by omega⟩

theorem reconstructPath_ok_of_le {p : List Hop} (h : p.length ≤ 100) :
    reconstructPath p = .ok p := by
  unfold reconstructPath
  rw [if_neg (by omega)]

theorem mkHop_fromId (cur : SState) (edge : AEdge) :
    (mkHop cur edge).fromId = cur.nodeId := rfl

theorem mkHop_toId (cur : SState) (edge : AEdge) :
    (mkHop cur edge).toId = edge.toId := rfl

theorem childState_inv {ctx : AStarCtx} {sourceId : Nat} {cur : SState} {edge : AEdge}
    (hcur : StateInv ctx sourceId cur)
    (hedge : edge ∈ ctx.adjArr cur.nodeId)
    (hnotvis : ¬bitsetHas cur.visitedBits edge.toId = true)
    (hnottgt : edge.toId ≠ ctx.targetId)
    (hhops : cur.hops + 1 < ctx.maxHops) :
    StateInv ctx sourceId (childState ctx cur edge) := by
  have hnotin : edge.toId ∉ pathNodes sourceId cur.path := fun hmem =>
    hnotvis ((hcur.bits edge.toId).mpr hmem)
  refine ⟨?_, ?_, ?_, ?_, ?_, ?_, ?_, ?_, ?_⟩
  · show chainOK sourceId (cur.path ++ [mkHop cur edge]) = true
    rw [chainOK_append_one, hcur.chain, Bool.true_and, mkHop_fromId, hcur.ends]
    simp
  · show endNode sourceId (cur.path ++ [mkHop cur edge]) = edge.toId
    rw [endNode_append_one, mkHop_toId]
  · show (cur.path ++ [mkHop cur edge]).length = cur.hops + 1
    rw [List.length_append, hcur.len, List.length_singleton]
  · exact hhops
  · intro i
    show bitsetHas (bitsetAdd cur.visitedBits edge.toId) i = true ↔
      i ∈ pathNodes sourceId (cur.path ++ [mkHop cur edge])
    rw [bitsetHas_add, pathNodes_append_one, mkHop_toId, Bool.or_eq_true,
      List.mem_append, List.mem_singleton, hcur.bits i]
    constructor
    · rintro (h | h)
      · exact Or.inl h
      · exact Or.inr (eq_of_beq h).symm
    · rintro (h | h)
      · exact Or.inl h
      · right; rw [h]; simp
  · show (pathNodes sourceId (cur.path ++ [mkHop cur edge])).Nodup
    rw [pathNodes_append_one, mkHop_toId]
    rw [List.nodup_append]
    exact ⟨hcur.nodup, List.nodup_singleton _,
      by intro x hx hy; rw [List.mem_singleton] at hy; exact hnotin (hy ▸ hx)⟩
  · show ctx.targetId ∉ pathNodes sourceId (cur.path ++ [mkHop cur edge])
    rw [pathNodes_append_one, mkHop_toId, List.mem_append, List.mem_singleton]
    rintro (h | h)
    · exact hcur.targetNotIn h
    · exact hnottgt h.symm
  · intro hop hmem
    rcases List.mem_append.mp hmem with h | h
    · exact hcur.hopsAdj hop h
    · rw [List.mem_singleton] at h
      subst h
      exact ⟨edge, hedge, rfl, rfl⟩
  · intro hop hmem
    rcases List.mem_append.mp hmem with h | h
    · exact hcur.hopsCap hop h
    · rw [List.mem_singleton] at h
      subst h
      rfl

theorem completionRoute_inv {ctx : AStarCtx} {sourceId : Nat} {cur : SState}
    {edge : AEdge}
    (hcur : StateInv ctx sourceId cur)
    (hedge : edge ∈ ctx.adjArr cur.nodeId)
    (htgt : edge.toId = ctx.targetId) :
    RouteInv ctx sourceId (cur.path ++ [mkHop cur edge]) := by
  refine ⟨?_, ?_, ?_, ?_, ?_, ?_, ?_⟩
  · simp
  · rw [chainOK_append_one, hcur.chain, Bool.true_and, mkHop_fromId, hcur.ends]
    simp
  · rw [endNode_append_one, mkHop_toId, htgt]
  · rw [List.length_append, hcur.len, List.length_singleton]
    have := hcur.hopsLt
    omega
  · rw [pathNodes_append_one, mkHop_toId, htgt]
    rw [List.nodup_append]
    exact ⟨hcur.nodup, List.nodup_singleton _,
      by intro x hx hy; rw [List.mem_singleton] at hy
         exact hcur.targetNotIn (hy ▸ hx)⟩
  · intro hop hmem
    rcases List.mem_append.mp hmem with h | h
    · exact hcur.hopsAdj hop h
    · rw [List.mem_singleton] at h
      subst h
      exact ⟨edge, hedge, rfl, rfl⟩
  · left
    intro hop hmem
    rcases List.mem_append.mp hmem with h | h
    · exact hcur.hopsCap hop h
    · rw [List.mem_singleton] at h
      subst h
      rfl

theorem insertCandidate_completedAny (ctx : AStarCtx) (st : AStarState)
    (route : List Hop) (newScore : ℚ) :
    (insertCandidate ctx st route newScore).completedAny = st.completedAny := by
  unfold insertCandidate
  split_ifs <;> rfl

theorem completeRoute_completedAny {ctx : AStarCtx} {cur : SState} {st st' : AStarState}
    {edge : AEdge} (hok : completeRoute ctx cur st edge = .ok st') :
    st'.completedAny = true := by
  unfold completeRoute at hok
  cases hrec : reconstructPath (cur.path ++ [mkHop cur edge]) with
  | error e => simp only [hrec] at hok; cases hok
  | ok route =>
    simp only [hrec] at hok
    split at hok
    · cases hok; rfl
    · cases hok
      rw [insertCandidate_completedAny]

theorem completeRoute_inv {ctx : AStarCtx} {sourceId : Nat} {cur : SState}
    {st st' : AStarState} {edge : AEdge}
    (hinv : AStarInv ctx sourceId st)
    (hcur : StateInv ctx sourceId cur)
    (hedge : edge ∈ ctx.adjArr cur.nodeId)
    (htgt : edge.toId = ctx.targetId)
    (hok : completeRoute ctx cur st edge = .ok st') :
    AStarInv ctx sourceId st' := by
  unfold completeRoute at hok
  cases hrec : reconstructPath (cur.path ++ [mkHop cur edge]) with
  | error e => simp only [hrec] at hok; cases hok
  | ok route =>
    simp only [hrec] at hok
    obtain ⟨hre, _⟩ := reconstructPath_ok hrec
    subst hre
    split at hok
    · rename_i hmem
      cases hok
      exact
        { frontierInv := hinv.frontierInv
          candInv := hinv.candInv
          candKeys := hinv.candKeys
          candSeen := hinv.candSeen
          kthNonempty := hinv.kthNonempty
          seenNonempty := hinv.seenNonempty
          completedSeen := fun _ => List.ne_nil_of_mem hmem }
    · rename_i hnmem
      cases hok
      have hroute := completionRoute_inv hcur hedge htgt
      obtain ⟨p1, p2, p3, p4, p5, p6, p7, p8⟩ :=
        @insertCandidate_pieces ctx sourceId { st with completedAny := true }
          (cur.path ++ [mkHop cur edge]) (newScoreOf ctx cur edge)
          hinv.candInv hinv.candKeys hinv.candSeen hinv.kthNonempty hroute hnmem
      exact
        { frontierInv := by rw [p4]; exact hinv.frontierInv
          candInv := p1
          candKeys := p2
          candSeen := p3
          kthNonempty := fun _ => p8
          seenNonempty := fun _ => p8
          completedSeen := by intro _; rw [p7]; simp }

theorem processEdge_inv {ctx : AStarCtx} {sourceId : Nat} {cur : SState}
    {st st' : AStarState} {edge : AEdge}
    (hinv : AStarInv ctx sourceId st)
    (hcur : StateInv ctx sourceId cur)
    (hedge : edge ∈ ctx.adjArr cur.nodeId)
    (hok : processEdge ctx cur st edge = .ok st') :
    AStarInv ctx sourceId st' := by
  unfold processEdge at hok
  split_ifs at hok with h1 h2 h3 h4 h5 h6
  · cases hok; exact hinv
  · cases hok; exact hinv
  · cases hok; exact hinv
  · exact completeRoute_inv hinv hcur hedge h4 hok
  · cases hok; exact hinv
  · cases hok
    refine
      { frontierInv := ?_
        candInv := hinv.candInv
        candKeys := hinv.candKeys
        candSeen := hinv.candSeen
        kthNonempty := hinv.kthNonempty
        seenNonempty := hinv.seenNonempty
        completedSeen := hinv.completedSeen }
    intro s hs
    rcases mem_of_mem_heapPush hs with h | h
    · exact hinv.frontierInv s h
    · subst h
      exact childState_inv hcur hedge h1 h4 h5
  · cases hok; exact hinv

theorem processEdge_isOk {ctx : AStarCtx} {sourceId : Nat} (cur : SState)
    (st : AStarState) (edge : AEdge)
    (hcur : StateInv ctx sourceId cur) (h100 : ctx.maxHops ≤ 100) :
    ∃ st', processEdge ctx cur st edge = .ok st' := by
  unfold processEdge
  split_ifs with h1 h2 h3 h4 h5 h6
  · exact ⟨st, rfl⟩
  · exact ⟨st, rfl⟩
  · exact ⟨st, rfl⟩
  · unfold completeRoute
    have hlen : (cur.path ++ [mkHop cur edge]).length ≤ 100 := by
      rw [List.length_append, hcur.len, List.length_singleton]
      have := hcur.hopsLt
      omega
    cases hrec : reconstructPath (cur.path ++ [mkHop cur edge]) with
    | error e =>
      rw [reconstructPath_ok_of_le hlen] at hrec
      cases hrec
    | ok route =>
      dsimp only
      by_cases hmem : routeKeyOf route ∈ st.seenRoutes
      · exact ⟨_, by rw [if_pos hmem]⟩
      · exact ⟨_, by rw [if_neg hmem]⟩
  · exact ⟨st, rfl⟩
  · exact ⟨_, rfl⟩
  · exact ⟨st, rfl⟩

theorem processEdge_untouched {ctx : AStarCtx} {cur : SState} {st st' : AStarState}
    {edge : AEdge}
    (hok : processEdge ctx cur st edge = .ok st')
    (hnc : st'.completedAny = false) :
    st'.candidates = st.candidates ∧ st.completedAny = false := by
  unfold processEdge at hok
  split_ifs at hok with h1 h2 h3 h4 h5 h6
  · cases hok; exact ⟨rfl, hnc⟩
  · cases hok; exact ⟨rfl, hnc⟩
  · cases hok; exact ⟨rfl, hnc⟩
  · have := completeRoute_completedAny hok
    rw [this] at hnc
    cases hnc
  · cases hok; exact ⟨rfl, hnc⟩
  · cases hok; exact ⟨rfl, hnc⟩
  · cases hok; exact ⟨rfl, hnc⟩

theorem foldlM_processEdge_inv {ctx : AStarCtx} {sourceId : Nat} {cur : SState} :
    ∀ (l : List AEdge) (st st' : AStarState),
      (∀ e ∈ l, e ∈ ctx.adjArr cur.nodeId) →
      StateInv ctx sourceId cur →
      AStarInv ctx sourceId st →
      l.foldlM (processEdge ctx cur) st = .ok st' →
      AStarInv ctx sourceId st' := by
  intro l
  induction l with
  | nil =>
    intro st st' _ _ hinv h
    simp only [List.foldlM_nil] at h
    cases h
    exact hinv
  | cons a t ih =>
    intro st st' hmem hcur hinv h
    rw [List.foldlM_cons] at h
    rcases except_bind_ok.mp h with ⟨mid, hmid, hrest⟩
    exact ih mid st' (fun e he => hmem e (List.mem_cons_of_mem _ he)) hcur
      (processEdge_inv hinv hcur (hmem a (List.mem_cons_self _ _)) hmid) hrest

theorem foldlM_processEdge_isOk {ctx : AStarCtx} {sourceId : Nat} {cur : SState}
    (hcur : StateInv ctx sourceId cur) (h100 : ctx.maxHops ≤ 100) :
    ∀ (l : List AEdge) (st : AStarState),
      ∃ st', l.foldlM (processEdge ctx cur) st = .ok st' := by
  intro l
  induction l with
  | nil =>
    intro st
    exact ⟨st, by simp only [List.foldlM_nil]; rfl⟩
  | cons a t ih =>
    intro st
    obtain ⟨mid, hmid⟩ := processEdge_isOk cur st a hcur h100
    obtain ⟨st', hrest⟩ := ih mid
    refine ⟨st', ?_⟩
    rw [List.foldlM_cons, hmid]
    exact hrest

theorem foldlM_processEdge_untouched {ctx : AStarCtx} {cur : SState} :
    ∀ (l : List AEdge) (st st' : AStarState),
      l.foldlM (processEdge ctx cur) st = .ok st' →
      st'.completedAny = false →
      st'.candidates = st.candidates ∧ st.completedAny = false := by
  intro l
  induction l with
  | nil =>
    intro st st' h hnc
    simp only [List.foldlM_nil] at h
    cases h
    exact ⟨rfl, hnc⟩
  | cons a t ih =>
    intro st st' h hnc
    rw [List.foldlM_cons] at h
    rcases except_bind_ok.mp h with ⟨mid, hmid, hrest⟩
    obtain ⟨hc1, hc2⟩ := ih mid st' hrest hnc
    obtain ⟨hc3, hc4⟩ := processEdge_untouched hmid hc2
    exact ⟨hc1.trans hc3, hc4⟩

theorem expandState_inv {ctx : AStarCtx} {sourceId : Nat} {cur : SState}
    {st st' : AStarState}
    (hinv : AStarInv ctx sourceId st)
    (hcur : StateInv ctx sourceId cur)
    (hok : expandState ctx st cur = .ok st') :
    AStarInv ctx sourceId st' := by
  unfold expandState at hok
  split_ifs at hok with h1 h2
  · cases hok; exact hinv
  · cases hok; exact hinv
  · exact foldlM_processEdge_inv _ st st'
      (fun e he => List.take_subset _ _ he) hcur hinv hok

theorem expandState_isOk {ctx : AStarCtx} {sourceId : Nat} (cur : SState)
    (st : AStarState)
    (hcur : StateInv ctx sourceId cur) (h100 : ctx.maxHops ≤ 100) :
    ∃ st', expandState ctx st cur = .ok st' := by
  unfold expandState
  split_ifs with h1 h2
  · exact ⟨st, rfl⟩
  · exact ⟨st, rfl⟩
  · exact foldlM_processEdge_isOk hcur h100 _ st

theorem expandState_untouched {ctx : AStarCtx} {cur : SState} {st st' : AStarState}
    (hok : expandState ctx st cur = .ok st')
    (hnc : st'.completedAny = false) :
    st'.candidates = st.candidates ∧ st.completedAny = false := by
  unfold expandState at hok
  split_ifs at hok with h1 h2
  · cases hok; exact ⟨rfl, hnc⟩
  · cases hok; exact ⟨rfl, hnc⟩
  · exact foldlM_processEdge_untouched _ st st' hok hnc

theorem expandRound_inv {ctx : AStarCtx} {sourceId : Nat} :
    ∀ (n : Nat) (st st' : AStarState),
      AStarInv ctx sourceId st →
      expandRound ctx st n = .ok st' →
      AStarInv ctx sourceId st' := by
  intro n
  induction n with
  | zero =>
    intro st st' hinv hok
    cases hok
    exact hinv
  | succ n ih =>
    intro st st' hinv hok
    rw [expandRound] at hok
    rcases hpop : heapPop cmpFrontier st.frontier with ⟨fst, rest⟩
    rw [hpop] at hok
    cases fst with
    | none => cases hok; exact hinv
    | some cur =>
      rcases except_bind_ok.mp hok with ⟨mid, hmid, hrest⟩
      have hcurmem : cur ∈ st.frontier :=
        @heapPop_fst_mem SState cmpFrontier st.frontier cur (by rw [hpop])
      have hcur := hinv.frontierInv cur hcurmem
      have hrestinv : AStarInv ctx sourceId { st with frontier := rest } :=
        { frontierInv := by
            intro s hs
            apply hinv.frontierInv
            exact @mem_of_mem_heapPop_snd SState cmpFrontier st.frontier s
              (by rw [hpop]; exact hs)
          candInv := hinv.candInv
          candKeys := hinv.candKeys
          candSeen := hinv.candSeen
          kthNonempty := hinv.kthNonempty
          seenNonempty := hinv.seenNonempty
          completedSeen := hinv.completedSeen }
      exact ih mid st' (expandState_inv hrestinv hcur hmid) hrest

theorem expandRound_isOk {ctx : AStarCtx} {sourceId : Nat} (h100 : ctx.maxHops ≤ 100) :
    ∀ (n : Nat) (st : AStarState),
      AStarInv ctx sourceId st →
      ∃ st', expandRound ctx st n = .ok st' := by
  intro n
  induction n with
  | zero => intro st _; exact ⟨st, rfl⟩
  | succ n ih =>
    intro st hinv
    rw [expandRound]
    rcases hpop : heapPop cmpFrontier st.frontier with ⟨fst, rest⟩
    cases fst with
    | none => exact ⟨st, rfl⟩
    | some cur =>
      have hcurmem : cur ∈ st.frontier :=
        @heapPop_fst_mem SState cmpFrontier st.frontier cur (by rw [hpop])
      have hcur := hinv.frontierInv cur hcurmem
      have hrestinv : AStarInv ctx sourceId { st with frontier := rest } :=
        { frontierInv := by
            intro s hs
            apply hinv.frontierInv
            exact @mem_of_mem_heapPop_snd SState cmpFrontier st.frontier s
              (by rw [hpop]; exact hs)
          candInv := hinv.candInv
          candKeys := hinv.candKeys
          candSeen := hinv.candSeen
          kthNonempty := hinv.kthNonempty
          seenNonempty := hinv.seenNonempty
          completedSeen := hinv.completedSeen }
      obtain ⟨mid, hmid⟩ := expandState_isOk cur { st with frontier := rest } hcur h100
      obtain ⟨st', hrest⟩ := ih mid (expandState_inv hrestinv hcur hmid)
      refine ⟨st', ?_⟩
      dsimp only
      rw [hmid]
      exact hrest

theorem expandRound_untouched {ctx : AStarCtx} :
    ∀ (n : Nat) (st st' : AStarState),
      expandRound ctx st n = .ok st' →
      st'.completedAny = false →
      st'.candidates = st.candidates ∧ st.completedAny = false := by
  intro n
  induction n with
  | zero =>
    intro st st' hok hnc
    cases hok
    exact ⟨rfl, hnc⟩
  | succ n ih =>
    intro st st' hok hnc
    rw [expandRound] at hok
    rcases hpop : heapPop cmpFrontier st.frontier with ⟨fst, rest⟩
    rw [hpop] at hok
    cases fst with
    | none => cases hok; exact ⟨rfl, hnc⟩
    | some cur =>
      rcases except_bind_ok.mp hok with ⟨mid, hmid, hrest⟩
      obtain ⟨hc1, hc2⟩ := ih mid st' hrest hnc
      obtain ⟨hc3, hc4⟩ := expandState_untouched hmid hc2
      exact ⟨hc1.trans hc3, hc4⟩

theorem mem_of_mem_capFrontierGo :
    ∀ (fuel : Nat) (l : List SState) (cap : Nat) (s : SState),
      s ∈ capFrontierGo fuel l cap → s ∈ l := by
  intro fuel
  induction fuel with
  | zero => intro l cap s h; exact h
  | succ fuel ih =>
    intro l cap s h
    rw [capFrontierGo] at h
    split at h
    · exact h
    · exact mem_of_mem_heapPop_snd (ih _ _ _ h)

theorem mem_of_mem_capFrontier {l : List SState} {cap : Nat} {s : SState}
    (h : s ∈ capFrontier l cap) : s ∈ l :=
  mem_of_mem_capFrontierGo _ _ _ _ h

theorem astarLoop_inv {ctx : AStarCtx} {sourceId : Nat} :
    ∀ (fuel : Nat) (st st' : AStarState) (ic : Nat),
      AStarInv ctx sourceId st →
      astarLoop ctx st ic fuel = .ok st' →
      AStarInv ctx sourceId st' := by
  intro fuel
  induction fuel with
  | zero =>
    intro st st' ic hinv hok
    cases hok
    exact hinv
  | succ fuel ih =>
    intro st st' ic hinv hok
    rw [astarLoop] at hok
    split_ifs at hok with h1 h2
    · cases hok; exact hinv
    · cases hok; exact hinv
    · cases hpeek : heapPeek st.frontier with
      | none => rw [hpeek] at hok; cases hok; exact hinv
      | some top =>
        rw [hpeek] at hok
        dsimp only at hok
        split_ifs at hok with h3
        · cases hok; exact hinv
        · rcases except_bind_ok.mp hok with ⟨mid, hmid, hrest⟩
          have hmidinv := expandRound_inv _ st mid hinv hmid
          have hcapinv : AStarInv ctx sourceId { mid with frontier := capFrontier mid.frontier (max (ctx.beamWidth * 32) (ctx.topK * 128)) } :=
            { frontierInv := fun s hs =>
                hmidinv.frontierInv s (mem_of_mem_capFrontier hs)
              candInv := hmidinv.candInv
              candKeys := hmidinv.candKeys
              candSeen := hmidinv.candSeen
              kthNonempty := hmidinv.kthNonempty
              seenNonempty := hmidinv.seenNonempty
              completedSeen := hmidinv.completedSeen }
          exact ih _ st' _ hcapinv hrest

theorem astarLoop_isOk {ctx : AStarCtx} {sourceId : Nat} (h100 : ctx.maxHops ≤ 100) :
    ∀ (fuel : Nat) (st : AStarState) (ic : Nat),
      AStarInv ctx sourceId st →
      ∃ st', astarLoop ctx st ic fuel = .ok st' := by
  intro fuel
  induction fuel with
  | zero => intro st ic _; exact ⟨st, rfl⟩
  | succ fuel ih =>
    intro st ic hinv
    rw [astarLoop]
    split_ifs with h1 h2
    · exact ⟨st, rfl⟩
    · exact ⟨st, rfl⟩
    · cases hpeek : heapPeek st.frontier with
      | none => exact ⟨st, rfl⟩
      | some top =>
        dsimp only
        split_ifs with h3
        · exact ⟨st, rfl⟩
        · obtain ⟨mid, hmid⟩ := expandRound_isOk h100 _ st hinv
          have hmidinv := expandRound_inv _ st mid hinv hmid
          have hcapinv : AStarInv ctx sourceId { mid with frontier := capFrontier mid.frontier (max (ctx.beamWidth * 32) (ctx.topK * 128)) } :=
            { frontierInv := fun s hs =>
                hmidinv.frontierInv s (mem_of_mem_capFrontier hs)
              candInv := hmidinv.candInv
              candKeys := hmidinv.candKeys
              candSeen := hmidinv.candSeen
              kthNonempty := hmidinv.kthNonempty
              seenNonempty := hmidinv.seenNonempty
              completedSeen := hmidinv.completedSeen }
          obtain ⟨st', hrest⟩ := ih _ ic.succ hcapinv
          refine ⟨st', ?_⟩
          rw [hmid]
          exact hrest

theorem astarLoop_untouched {ctx : AStarCtx} :
    ∀ (fuel : Nat) (st st' : AStarState) (ic : Nat),
      astarLoop ctx st ic fuel = .ok st' →
      st'.completedAny = false →
      st'.candidates = st.candidates ∧ st.completedAny = false := by
  intro fuel
  induction fuel with
  | zero =>
    intro st st' ic hok hnc
    cases hok
    exact ⟨rfl, hnc⟩
  | succ fuel ih =>
    intro st st' ic hok hnc
    rw [astarLoop] at hok
    split_ifs at hok with h1 h2
    · cases hok; exact ⟨rfl, hnc⟩
    · cases hok; exact ⟨rfl, hnc⟩
    · cases hpeek : heapPeek st.frontier with
      | none => rw [hpeek] at hok; cases hok; exact ⟨rfl, hnc⟩
      | some top =>
        rw [hpeek] at hok
        dsimp only at hok
        split_ifs at hok with h3
        · cases hok; exact ⟨rfl, hnc⟩
        · rcases except_bind_ok.mp hok with ⟨mid, hmid, hrest⟩
          obtain ⟨hc1, hc2⟩ := ih _ st' _ hrest hnc
          obtain ⟨hc3, hc4⟩ := expandRound_untouched _ st mid hmid hc2
          exact ⟨hc1.trans hc3, hc4⟩

theorem initialSearchState_inv {ctx : AStarCtx} {sourceId : Nat}
    (hne : sourceId ≠ ctx.targetId) (hmh : 1 ≤ ctx.maxHops) :
    StateInv ctx sourceId (initialSearchState ctx sourceId) := by
  refine
    { chain := rfl
      ends := rfl
      len := rfl
      hopsLt := hmh
      bits := ?_
      nodup := by simp [initialSearchState, pathNodes]
      targetNotIn := by
        simp only [initialSearchState, pathNodes, List.map_nil, List.mem_singleton]
        exact fun h => hne h.symm
      hopsAdj := by intro hop h; simp [initialSearchState] at h
      hopsCap := by intro hop h; simp [initialSearchState] at h }
  intro i
  show bitsetHas (bitsetAdd 0 sourceId) i = true ↔ i ∈ pathNodes sourceId []
  rw [bitsetHas_add, bitsetHas_zero]
  simp only [Bool.false_or, beq_iff_eq, pathNodes, List.map_nil, List.mem_singleton]
  exact eq_comm

theorem baseSearchState_inv {ctx : AStarCtx} {sourceId : Nat}
    (hne : sourceId ≠ ctx.targetId) (hmh : 1 ≤ ctx.maxHops) :
    AStarInv ctx sourceId (baseSearchState ctx sourceId) := by
  refine
    { frontierInv := ?_
      candInv := by intro c hc; simp [baseSearchState] at hc
      candKeys := by simp [baseSearchState]
      candSeen := by intro c hc; simp [baseSearchState] at hc
      kthNonempty := by intro h; simp [baseSearchState] at h
      seenNonempty := by intro h; simp [baseSearchState] at h
      completedSeen := by intro h; simp [baseSearchState] at h }
  intro s hs
  have hs' : s ∈ heapPush cmpFrontier [] (initialSearchState ctx sourceId) := hs
  have : s ∈ ([] : List SState) ∨ s = initialSearchState ctx sourceId :=
    mem_of_mem_heapPush hs'
  rcases this with h | h
  · simp at h
  · rw [h]; exact initialSearchState_inv hne hmh

theorem directSeedRoute_inv {ctx : AStarCtx} {sourceId : Nat} {edge : AEdge}
    (hne : sourceId ≠ ctx.targetId) (hmh : 1 ≤ ctx.maxHops)
    (hfind : (ctx.adjArr sourceId).find? (fun e => e.toId == ctx.targetId) = some edge) :
    RouteInv ctx sourceId [directSeedHop ctx sourceId edge] := by
  have hmem : edge ∈ ctx.adjArr sourceId := List.mem_of_find?_eq_some hfind
  have hp := List.find?_some hfind
  have htid : edge.toId = ctx.targetId := eq_of_beq (by exact hp)
  refine
    { nonempty := by simp
      chain := by simp [chainOK, directSeedHop]
      ends := rfl
      len := hmh
      nodup := by
        simp only [pathNodes, directSeedHop, List.map_cons, List.map_nil]
        simp [hne]
      hopsAdj := ?_
      caps := Or.inr (by intro hop h; rw [List.mem_singleton] at h; rw [h]; rfl) }
  intro hop h
  rw [List.mem_singleton] at h
  subst h
  exact ⟨edge, hmem, rfl, htid⟩

theorem seedState_inv {ctx : AStarCtx} {sourceId : Nat}
    (hne : sourceId ≠ ctx.targetId) (hmh : 1 ≤ ctx.maxHops) :
    AStarInv ctx sourceId (seedState ctx sourceId) := by
  unfold seedState
  cases hfind : (ctx.adjArr sourceId).find? (fun e => e.toId == ctx.targetId) with
  | none => exact baseSearchState_inv hne hmh
  | some edge =>
    dsimp only
    split_ifs with hseen
    · exact baseSearchState_inv hne hmh
    · have hbase := baseSearchState_inv hne hmh
      have hcands : heapPush cmpCand (baseSearchState ctx sourceId).candidates
          ⟨[directSeedHop ctx sourceId edge],
           edge.logSpotPrice - ctx.gasPerHopPenalty⟩ =
          [⟨[directSeedHop ctx sourceId edge],
            edge.logSpotPrice - ctx.gasPerHopPenalty⟩] := rfl
      refine
        { frontierInv := hbase.frontierInv
          candInv := ?_
          candKeys := by rw [hcands]; simp
          candSeen := ?_
          kthNonempty := by rw [hcands]; intro _; simp
          seenNonempty := by rw [hcands]; intro _; simp
          completedSeen := by intro h; simp [baseSearchState] at h }
      · intro c hc
        rw [hcands, List.mem_singleton] at hc
        rw [hc]
        exact directSeedRoute_inv hne hmh hfind
      · intro c hc
        rw [hcands, List.mem_singleton] at hc
        rw [hc]
        simp [baseSearchState]

theorem chainOK_head {start : Nat} {h : Hop} {t : List Hop}
    (hc : chainOK start (h :: t) = true) : h.fromId = start := by
  rw [chainOK, Bool.and_eq_true] at hc
  exact eq_of_beq hc.1

theorem endNode_getLast :
    ∀ (l : List Hop) (start : Nat) (h : l ≠ []),
      endNode start l = (l.getLast h).toId := by
  intro l
  induction l with
  | nil => intro start h; exact absurd rfl h
  | cons a t ih =>
    intro start h
    cases t with
    | nil => rfl
    | cons b u =>
      rw [List.getLast_cons (by simp)]
      exact ih a.toId (by simp)

theorem findTopK_ok_elim {ctx : AStarCtx} {sourceId : Nat} {routes : List Route}
    (hne : sourceId ≠ ctx.targetId)
    (hok : findTopKRoutesAStar ctx sourceId = .ok routes) :
    ∃ stF, astarLoop ctx (seedState ctx sourceId) 0 ASTAR_MAX_ITERATIONS = .ok stF ∧
      routes = (heapToSortedArray cmpCand stF.candidates).map
        (fun c => { hops := c.route, capRaw := capRawOf c.route }) := by
  unfold findTopKRoutesAStar at hok
  rw [if_neg hne] at hok
  cases hloop : astarLoop ctx (seedState ctx sourceId) 0 ASTAR_MAX_ITERATIONS with
  | error e => rw [hloop] at hok; exact Except.noConfusion hok
  | ok stF =>
    rw [hloop] at hok
    dsimp only at hok
    injection hok with h
    exact ⟨stF, rfl, h.symm⟩

/-- C3: on any adjacency, for any source ≠ target and `maxHops ≥ 1`, every
route returned by `findTopKRoutesAStar` is a nonempty chained path: its
first hop starts at the source, its last hop ends at the target, every
hop's destination is the next hop's origin (`chainOK`), it has at most
`maxHops` hops, and no token id repeats along it. -/
theorem findTopKRoutesAStar_path_validity {ctx : AStarCtx} {sourceId : Nat}
    {routes : List Route}
    (hne : sourceId ≠ ctx.targetId) (hmh : 1 ≤ ctx.maxHops)
    (hok : findTopKRoutesAStar ctx sourceId = .ok routes) :
    ∀ r ∈ routes,
      r.hops ≠ [] ∧
      (∀ h0 ∈ r.hops.head?, h0.fromId = sourceId) ∧
      (∀ hl ∈ r.hops.getLast?, hl.toId = ctx.targetId) ∧
      chainOK sourceId r.hops = true ∧
      r.hops.length ≤ ctx.maxHops ∧
      (pathNodes sourceId r.hops).Nodup := by
  obtain ⟨stF, hloop, hroutes⟩ := findTopK_ok_elim hne hok
  have hinv := astarLoop_inv ASTAR_MAX_ITERATIONS (seedState ctx sourceId) stF 0
    (seedState_inv hne hmh) hloop
  intro r hr
  rw [hroutes, List.mem_map] at hr
  obtain ⟨c, hc, hrc⟩ := hr
  have hcmem : c ∈ stF.candidates :=
    (heapToSortedArray_perm cmpCand stF.candidates).subset hc
  have hri := hinv.candInv c hcmem
  have hhops : r.hops = c.route := by rw [← hrc]
  rw [hhops]
  refine ⟨hri.nonempty, ?_, ?_, hri.chain, hri.len, hri.nodup⟩
  · intro h0 hh0
    cases hl : c.route with
    | nil => exact absurd hl hri.nonempty
    | cons a t =>
      rw [hl] at hh0
      simp only [List.head?_cons, Option.mem_def, Option.some.injEq] at hh0
      have := hri.chain
      rw [hl] at this
      rw [← hh0]
      exact chainOK_head this
  · intro hl hhl
    have hne' : c.route ≠ [] := hri.nonempty
    have hgl : c.route.getLast? = some (c.route.getLast hne') :=
      List.getLast?_eq_getLast c.route hne'
    rw [Option.mem_def, hgl, Option.some.injEq] at hhl
    rw [← hhl]
    rw [← endNode_getLast c.route sourceId hne']
    exact hri.ends

theorem findTopKRoutesAStar_path_validity_witness :
    (0 ≠ cexCtx.targetId ∧ 1 ≤ cexCtx.maxHops ∧
      findTopKRoutesAStar cexCtx 0 = .ok cexRoutes) ∧
    (∀ r ∈ cexRoutes,
      r.hops ≠ [] ∧
      (∀ h0 ∈ r.hops.head?, h0.fromId = 0) ∧
      (∀ hl ∈ r.hops.getLast?, hl.toId = cexCtx.targetId) ∧
      chainOK 0 r.hops = true ∧
      r.hops.length ≤ cexCtx.maxHops ∧
      (pathNodes 0 r.hops).Nodup) :=
  ⟨⟨by decide, by decide, by decide⟩,
   findTopKRoutesAStar_path_validity (by decide) (by decide) (by decide)⟩

theorem routeKey_eq_of_poolSeq_eq {ctx : AStarCtx} (hfun : PoolFunctional ctx) :
    ∀ (r1 r2 : List Hop) (start : Nat),
      chainOK start r1 = true → chainOK start r2 = true →
      (∀ h ∈ r1, HopPoolAdj ctx h) → (∀ h ∈ r2, HopPoolAdj ctx h) →
      r1.map (fun h => h.poolId) = r2.map (fun h => h.poolId) →
      routeKeyOf r1 = routeKeyOf r2 := by
  intro r1
  induction r1 with
  | nil =>
    intro r2 start _ _ _ _ hmap
    have h2 : r2 = [] := by
      have := hmap.symm
      simpa using this
    rw [h2]
  | cons a t ih =>
    intro r2 start hc1 hc2 ha1 ha2 hmap
    cases r2 with
    | nil => simp at hmap
    | cons b u =>
      simp only [List.map_cons, List.cons.injEq] at hmap
      obtain ⟨hpool, htail⟩ := hmap
      have hfa : a.fromId = start := chainOK_head hc1
      have hfb : b.fromId = start := chainOK_head hc2
      obtain ⟨ea, hea, heap, heat⟩ := ha1 a (List.mem_cons_self _ _)
      obtain ⟨eb, heb, hebp, hebt⟩ := ha2 b (List.mem_cons_self _ _)
      rw [hfa] at hea
      rw [hfb] at heb
      have hto : a.toId = b.toId := by
        have h := hfun start ea hea eb heb (by rw [heap, hebp, hpool])
        rw [← heat, ← hebt, h]
      have hc1t : chainOK a.toId t = true := by
        rw [chainOK, Bool.and_eq_true] at hc1; exact hc1.2
      have hc2t : chainOK a.toId u = true := by
        rw [chainOK, Bool.and_eq_true] at hc2
        rw [hto]; exact hc2.2
      have hrec := ih u a.toId hc1t hc2t
        (fun h hh => ha1 h (List.mem_cons_of_mem _ hh))
        (fun h hh => ha2 h (List.mem_cons_of_mem _ hh)) htail
      simp only [routeKeyOf, List.map_cons] at hrec ⊢
      rw [hrec, hfa, hfb, hpool, hto]

/-- C6: assuming the pool-functionality shape of the built adjacency, any
two distinct routes returned by one call to `findTopKRoutesAStar` have
different ordered pool-id sequences. -/
theorem findTopKRoutesAStar_pool_seq_unique {ctx : AStarCtx} {sourceId : Nat}
    {routes : List Route}
    (hfun : PoolFunctional ctx)
    (hne : sourceId ≠ ctx.targetId) (hmh : 1 ≤ ctx.maxHops)
    (hok : findTopKRoutesAStar ctx sourceId = .ok routes) :
    routes.Pairwise (fun r1 r2 =>
      r1.hops.map (fun h => h.poolId) ≠ r2.hops.map (fun h => h.poolId)) := by
  obtain ⟨stF, hloop, hroutes⟩ := findTopK_ok_elim hne hok
  have hinv := astarLoop_inv ASTAR_MAX_ITERATIONS (seedState ctx sourceId) stF 0
    (seedState_inv hne hmh) hloop
  have hkeys : stF.candidates.Pairwise
      (fun c1 c2 => routeKeyOf c1.route ≠ routeKeyOf c2.route) :=
    List.pairwise_map.mp hinv.candKeys
  have hpool : stF.candidates.Pairwise
      (fun c1 c2 => c1.route.map (fun h => h.poolId) ≠
        c2.route.map (fun h => h.poolId)) := by
    refine List.Pairwise.imp_of_mem ?_ hkeys
    intro c1 c2 h1 h2 hkne heq
    exact hkne (routeKey_eq_of_poolSeq_eq hfun c1.route c2.route sourceId
      (hinv.candInv c1 h1).chain (hinv.candInv c2 h2).chain
      (hinv.candInv c1 h1).hopsAdj (hinv.candInv c2 h2).hopsAdj heq)
  have hsorted := ((heapToSortedArray_perm cmpCand stF.candidates).pairwise_iff
    (fun h heq => h heq.symm)).mpr hpool
  rw [hroutes, List.pairwise_map]
  exact hsorted

theorem c6Ctx_poolFunctional : PoolFunctional c6Ctx := by
  intro u e1 he1 e2 he2 hp
  rcases u with _ | _ | _ | u
  · have he1' : e1 ∈ [edge02, edge01] := he1
    have he2' : e2 ∈ [edge02, edge01] := he2
    rcases List.mem_cons.mp he1' with h1 | h1 <;>
      rcases List.mem_cons.mp he2' with h2 | h2 <;>
      (try rw [List.mem_singleton] at h1) <;> (try rw [List.mem_singleton] at h2) <;>
      subst h1 <;> subst h2 <;> first | rfl | (exfalso; revert hp; decide)
  · have he1' : e1 ∈ [edge12] := he1
    have he2' : e2 ∈ [edge12] := he2
    rw [List.mem_singleton] at he1' he2'
    rw [he1', he2']
  · exact absurd (show e1 ∈ ([] : List AEdge) from he1) (List.not_mem_nil e1)
  · exact absurd (show e1 ∈ ([] : List AEdge) from he1) (List.not_mem_nil e1)

theorem findTopKRoutesAStar_pool_seq_unique_witness :
    (PoolFunctional c6Ctx ∧ (0 : Nat) ≠ c6Ctx.targetId ∧ 1 ≤ c6Ctx.maxHops ∧
      findTopKRoutesAStar c6Ctx 0 = .ok c6Routes) ∧
    c6Routes.Pairwise (fun r1 r2 =>
      r1.hops.map (fun h => h.poolId) ≠ r2.hops.map (fun h => h.poolId)) :=
  ⟨⟨c6Ctx_poolFunctional, by decide, by decide, by decide⟩,
   @findTopKRoutesAStar_pool_seq_unique c6Ctx 0 c6Routes c6Ctx_poolFunctional
     (by decide) (by decide) (by decide)⟩

theorem routeCapRawAcc_go_some :
    ∀ (t : List Hop) (acc : ℚ),
      (∀ h ∈ t, h.dxCapRaw ≠ none) →
      t.foldl
        (fun acc hop =>
          match hop.dxCapRaw with
          | some c => some (match acc with | some m => min m c | none => c)
          | none => acc)
        (some acc) =
      some ((t.filterMap (fun h => h.dxCapRaw)).foldl min acc) := by
  intro t
  induction t with
  | nil => intro acc _; rfl
  | cons a u ih =>
    intro acc hs
    obtain ⟨c, hc⟩ : ∃ c, a.dxCapRaw = some c := by
      cases hca : a.dxCapRaw with
      | none => exact absurd hca (hs a (List.mem_cons_self _ _))
      | some c => exact ⟨c, rfl⟩
    rw [List.foldl_cons, List.filterMap_cons]
    rw [hc]
    exact ih (min acc c) (fun h hh => hs h (List.mem_cons_of_mem _ hh))

theorem routeCapRawAcc_all_some {r : List Hop} (hr : r ≠ [])
    (hs : ∀ h ∈ r, h.dxCapRaw ≠ none) :
    routeCapRawAcc r = (r.filterMap (fun h => h.dxCapRaw)).min? := by
  cases r with
  | nil => exact absurd rfl hr
  | cons a t =>
    obtain ⟨c, hc⟩ : ∃ c, a.dxCapRaw = some c := by
      cases hca : a.dxCapRaw with
      | none => exact absurd hca (hs a (List.mem_cons_self _ _))
      | some c => exact ⟨c, rfl⟩
    unfold routeCapRawAcc
    rw [List.foldl_cons, List.filterMap_cons, hc]
    rw [routeCapRawAcc_go_some t c (fun h hh => hs h (List.mem_cons_of_mem _ hh))]
    rfl

theorem routeCapRawAcc_all_none :
    ∀ {r : List Hop}, (∀ h ∈ r, h.dxCapRaw = none) → routeCapRawAcc r = none := by
  intro r
  induction r with
  | nil => intro _; rfl
  | cons a t ih =>
    intro hn
    unfold routeCapRawAcc
    rw [List.foldl_cons, hn a (List.mem_cons_self _ _)]
    exact ih (fun h hh => hn h (List.mem_cons_of_mem _ hh))

/-- C7: for every route returned by `findTopKRoutesAStar`, the attached
`capRaw` is the minimum of the hops' `dxCapRaw` values when every hop
carries one, and the `1e18` sentinel when a hop is uncapped (which, by
the candidate invariant, happens exactly for the all-uncapped direct seed
route). -/
theorem findTopKRoutesAStar_capRaw_min {ctx : AStarCtx} {sourceId : Nat}
    {routes : List Route}
    (hne : sourceId ≠ ctx.targetId) (hmh : 1 ≤ ctx.maxHops)
    (hok : findTopKRoutesAStar ctx sourceId = .ok routes) :
    ∀ r ∈ routes,
      ((∃ h ∈ r.hops, h.dxCapRaw = none) → r.capRaw = 10 ^ 18) ∧
      ((∀ h ∈ r.hops, h.dxCapRaw ≠ none) →
        (r.hops.filterMap (fun h => h.dxCapRaw)).min? = some r.capRaw) := by
  obtain ⟨stF, hloop, hroutes⟩ := findTopK_ok_elim hne hok
  have hinv := astarLoop_inv ASTAR_MAX_ITERATIONS (seedState ctx sourceId) stF 0
    (seedState_inv hne hmh) hloop
  intro r hr
  rw [hroutes, List.mem_map] at hr
  obtain ⟨c, hc, hrc⟩ := hr
  have hcmem : c ∈ stF.candidates :=
    (heapToSortedArray_perm cmpCand stF.candidates).subset hc
  have hri := hinv.candInv c hcmem
  have hhops : r.hops = c.route := by rw [← hrc]
  have hcap : r.capRaw = capRawOf c.route := by rw [← hrc]
  constructor
  · rintro ⟨h0, hh0, hnone⟩
    rw [hhops] at hh0
    have hall : ∀ h ∈ c.route, h.dxCapRaw = none := by
      rcases hri.caps with hsome | hnone'
      · exact absurd (hsome h0 hh0) (by rw [hnone]; simp)
      · exact hnone'
    rw [hcap]
    unfold capRawOf
    rw [routeCapRawAcc_all_none hall]
    rfl
  · intro hs
    rw [hhops] at hs ⊢
    obtain ⟨m, hm⟩ : ∃ m, (c.route.filterMap (fun h => h.dxCapRaw)).min? = some m := by
      cases hroute : c.route with
      | nil => exact absurd hroute hri.nonempty
      | cons a t =>
        obtain ⟨cv, hcv⟩ : ∃ cv, a.dxCapRaw = some cv := by
          cases hca : a.dxCapRaw with
          | none =>
            exact absurd hca (hs a (by rw [hroute]; exact List.mem_cons_self _ _))
          | some cv => exact ⟨cv, rfl⟩
        rw [List.filterMap_cons, hcv]
        exact ⟨_, rfl⟩
    rw [hm, hcap]
    unfold capRawOf
    rw [routeCapRawAcc_all_some hri.nonempty hs, hm]
    rfl

theorem findTopKRoutesAStar_capRaw_min_witness :
    ((0 : Nat) ≠ c6Ctx.targetId ∧ 1 ≤ c6Ctx.maxHops ∧
      findTopKRoutesAStar c6Ctx 0 = .ok c6Routes) ∧
    (∀ r ∈ c6Routes,
      ((∃ h ∈ r.hops, h.dxCapRaw = none) → r.capRaw = 10 ^ 18) ∧
      ((∀ h ∈ r.hops, h.dxCapRaw ≠ none) →
        (r.hops.filterMap (fun h => h.dxCapRaw)).min? = some r.capRaw)) :=
  ⟨⟨by decide, by decide, by decide⟩,
   @findTopKRoutesAStar_capRaw_min c6Ctx 0 c6Routes
     (by decide) (by decide) (by decide)⟩

/-- C8, counterexample: on a well-formed input (source and target are
known distinct tokens, `maxHops ≥ 1`) `findTopKRoutesAStar` can still
throw: with `maxHops = 101` the completed 101-hop route trips
`reconstructPath`'s `maxSteps = 100` guard (lines 582-592). -/
theorem findTopKRoutesAStar_throws_on_wellformed :
    1 ≤ lineCtx.maxHops ∧ (0 : Nat) ≠ lineCtx.targetId ∧
    findTopKRoutesAStar lineCtx 0 = .error "reconstructPath infinite loop" :=
  ⟨by decide, by decide, by decide⟩

/-- C8, amended: under the additional bound `maxHops ≤ 100` (which the
production call sites satisfy) `findTopKRoutesAStar` never throws, and it
returns the empty list iff the source equals the target, or the search
completed no source→target route within the iteration budget and no
direct source→target edge existed to seed a candidate. -/
theorem findTopKRoutesAStar_empty_iff {ctx : AStarCtx} {sourceId : Nat}
    (hmh : 1 ≤ ctx.maxHops) (h100 : ctx.maxHops ≤ 100) :
    ∃ routes, findTopKRoutesAStar ctx sourceId = .ok routes ∧
      (routes = [] ↔ (sourceId = ctx.targetId ∨
        (∃ stF, astarFinalState ctx sourceId = .ok stF ∧
          stF.completedAny = false ∧
          (ctx.adjArr sourceId).find? (fun e => e.toId == ctx.targetId) = none))) := by
  by_cases hst : sourceId = ctx.targetId
  · refine ⟨[], ?_, ?_⟩
    · unfold findTopKRoutesAStar
      rw [if_pos hst]
    · simp [hst]
  · obtain ⟨stF, hloop⟩ := astarLoop_isOk h100 ASTAR_MAX_ITERATIONS
      (seedState ctx sourceId) 0 (seedState_inv hst hmh)
    have hinv := astarLoop_inv ASTAR_MAX_ITERATIONS (seedState ctx sourceId) stF 0
      (seedState_inv hst hmh) hloop
    refine ⟨(heapToSortedArray cmpCand stF.candidates).map
      (fun c => { hops := c.route, capRaw := capRawOf c.route }), ?_, ?_⟩
    · unfold findTopKRoutesAStar
      rw [if_neg hst, hloop]
    · constructor
      · intro hnil
        have hsorted_nil : heapToSortedArray cmpCand stF.candidates = [] :=
          List.map_eq_nil_iff.mp hnil
        have hcands_nil : stF.candidates = [] :=
          ((heapToSortedArray_perm cmpCand stF.candidates).symm.trans
            (by rw [hsorted_nil])).eq_nil
        have hcomp : stF.completedAny = false := by
          cases hcompv : stF.completedAny with
          | false => rfl
          | true =>
            exact absurd hcands_nil (hinv.seenNonempty (hinv.completedSeen hcompv))
        obtain ⟨hceq, _⟩ := astarLoop_untouched ASTAR_MAX_ITERATIONS
          (seedState ctx sourceId) stF 0 hloop hcomp
        have hfind : (ctx.adjArr sourceId).find?
            (fun e => e.toId == ctx.targetId) = none := by
          cases hfindv : (ctx.adjArr sourceId).find? (fun e => e.toId == ctx.targetId) with
          | none => rfl
          | some edge =>
            exfalso
            have hseed : (seedState ctx sourceId).candidates = [] := by
              rw [← hceq, hcands_nil]
            unfold seedState at hseed
            rw [hfindv] at hseed
            dsimp only at hseed
            split_ifs at hseed with hseen
            · exact absurd hseen (List.not_mem_nil _)
            · exact List.noConfusion hseed
        exact Or.inr ⟨stF, hloop, hcomp, hfind⟩
      · rintro (h | ⟨stF', hloop', hcomp', hfind'⟩)
        · exact absurd h hst
        · have hstF : stF' = stF := by
            have := hloop'.symm.trans hloop
            injection this
          rw [hstF] at hcomp'
          obtain ⟨hceq, _⟩ := astarLoop_untouched ASTAR_MAX_ITERATIONS
            (seedState ctx sourceId) stF 0 hloop hcomp'
          have hseed : (seedState ctx sourceId).candidates = [] := by
            unfold seedState
            rw [hfind']
            rfl
          have hnil : stF.candidates = [] := by rw [hceq, hseed]
          rw [List.map_eq_nil_iff, hnil]
          rfl

theorem findTopKRoutesAStar_empty_iff_witness :
    1 ≤ cexCtx.maxHops ∧ cexCtx.maxHops ≤ 100 ∧
    (∃ routes, findTopKRoutesAStar cexCtx 0 = .ok routes ∧
      (routes = [] ↔ ((0 : Nat) = cexCtx.targetId ∨
        (∃ stF, astarFinalState cexCtx 0 = .ok stF ∧
          stF.completedAny = false ∧
          (cexCtx.adjArr 0).find? (fun e => e.toId == cexCtx.targetId) = none)))) :=
  ⟨by decide, by decide, @findTopKRoutesAStar_empty_iff cexCtx 0 (by decide) (by decide)⟩

/-- C1, counterexample: in `cexCtx` the source state's `prio` is `0`
(the reverse-Dijkstra heuristic clamps every edge weight
`max(0, −logSpotPrice + penalty)` to `0`, line 302), yet the chained
suffix `0 →(pool 1) 1 →(pool 2) 2` completes source→target within the
2-hop budget with terminal score `2 > 0`: `prio` is not an upper bound.
The consequent fails too: the early-termination rule fires with
`kthScore = 1/10` (the direct seed) and the run returns only that route,
discarding the score-2 completion. -/
theorem astarPrio_not_upper_bound :
    (initialSearchState cexCtx 0).prio = 0 ∧
    (edge01 ∈ cexCtx.adjArr 0 ∧ edge01.toId = 1 ∧
      edge12 ∈ cexCtx.adjArr 1 ∧ edge12.toId = cexCtx.targetId) ∧
    suffixTerminalScore (initialSearchState cexCtx 0).score
      cexCtx.gasPerHopPenalty [edge01, edge12] = 2 ∧
    (initialSearchState cexCtx 0).prio < 2 ∧
    findTopKRoutesAStar cexCtx 0 = .ok cexRoutes ∧
    (∀ r ∈ cexRoutes, r.hops.map (fun h => h.poolId) ≠ [1, 2]) := by
  decide

/-- C1, amended: what the code's early-termination rule actually does
(lines 645-649): whenever the frontier's top `prio` satisfies
`prio ≤ kthScore` while at least `topK` candidates are held (and neither
the empty-frontier nor the time check fired first), the loop stops at
once and returns the current state — whether or not the frontier still
contains states leading to better completions. -/
theorem astarLoop_early_termination {ctx : AStarCtx} {st : AStarState}
    {ic fuel : Nat} {top : SState}
    (h1 : ¬st.frontier = [])
    (h2 : ¬((ic + 1) % 100 = 0 ∧ ctx.timeExceeded (ic + 1) = true))
    (hpeek : heapPeek st.frontier = some top)
    (hcond : ctx.topK ≤ st.candidates.length ∧ leNegInf top.prio st.kthScore = true) :
    astarLoop ctx st ic (fuel + 1) = .ok st := by
  rw [astarLoop, if_neg h1, if_neg h2, hpeek]
  dsimp only
  rw [if_pos hcond]

theorem astarLoop_early_termination_witness :
    (¬c1StopState.frontier = [] ∧
      ¬((0 + 1) % 100 = 0 ∧ cexCtx.timeExceeded (0 + 1) = true) ∧
      heapPeek c1StopState.frontier = some c1TopState ∧
      (cexCtx.topK ≤ c1StopState.candidates.length ∧
        leNegInf c1TopState.prio c1StopState.kthScore = true)) ∧
    astarLoop cexCtx c1StopState 0 (5 + 1) = .ok c1StopState :=
  ⟨⟨by decide, by decide, by decide, by decide, by decide⟩,
   @astarLoop_early_termination cexCtx c1StopState 0 5 c1TopState
     (by decide) (by decide) (by decide) ⟨by decide, by decide⟩⟩

/-- C2: the frontier-cap loop (lines 778-783) pops from `frontierHeap`,
a `MaxHeap` on `prio` (line 212), so each pop removes the current
*best*-`prio` state, not the worst: on a frontier holding priorities
`0..128` with cap `128`, the evicted state is exactly the one with the
top priority `128`, while the worst state (`prio = 0`) survives. -/
theorem capFrontier_removes_best :
    cexFrontier.length = 129 ∧
    (∀ s ∈ cexFrontier, s.prio ≤ 128) ∧
    (∃ s ∈ cexFrontier, s.prio = 128) ∧
    (∃ s ∈ cexFrontier, s.prio = 0) ∧
    (capFrontier cexFrontier 128).length = 128 ∧
    (∀ s ∈ capFrontier cexFrontier 128, s.prio ≠ 128) ∧
    (∃ s ∈ capFrontier cexFrontier 128, s.prio = 0) := by
  decide

/-- C9: for every reserve that passed the `reserveIn ≥ 1` check, the
probe's price impact is at most `0.001`, so the `priceImpact > 0.05`
branch of `buildAdjacencyMap` never fires and the shallow-pool filter
never removes an edge. -/
theorem probeFilter_never_drops {reserveIn : ℚ} (h1 : 1 ≤ reserveIn) :
    priceImpact reserveIn ≤ 1 / 1000 ∧ probeFilterDrops reserveIn = false := by
  have hp : 0 < probeSize reserveIn := by
    apply lt_min
    · nlinarith
    · norm_num
  have hd : 0 < reserveIn + probeSize reserveIn := by linarith
  have himp : priceImpact reserveIn ≤ 1 / 1000 := by
    unfold priceImpact
    rw [div_le_iff₀ hd]
    rcases le_total (reserveIn * (1 / 1000)) (10 ^ 9) with hle | hle
    · have heq : probeSize reserveIn = reserveIn * (1 / 1000) := min_eq_left hle
      rw [heq]; nlinarith
    · have heq : probeSize reserveIn = 10 ^ 9 := min_eq_right hle
      have hbig : (10 : ℚ) ^ 12 ≤ reserveIn * 1 := by nlinarith
      rw [heq]; nlinarith
  refine ⟨himp, ?_⟩
  simp only [probeFilterDrops, decide_eq_false_iff_not, not_lt]
  linarith

theorem probeFilter_never_drops_witness :
    (1 : ℚ) ≤ 1 ∧
    (priceImpact 1 ≤ 1 / 1000 ∧ probeFilterDrops 1 = false) :=
  ⟨by decide, probeFilter_never_drops (by decide)⟩

theorem buildResponseCurveGo_chain (route : List RHop) (gas : ℚ) :
    ∀ (samples : List ℚ) (p : CurvePoint),
      List.Chain' (· ≤ ·)
        (p.outputRaw ::
          (buildResponseCurveGo route gas (some p) samples).map
            (fun q => q.outputRaw)) := by
  intro samples
  induction samples with
  | nil => intro p; simp [buildResponseCurveGo]
  | cons s rest ih =>
    intro p
    rw [buildResponseCurveGo]
    dsimp only
    by_cases hlt : max 0 (simulateRoute route s - gas) < p.outputRaw
    · rw [if_pos hlt]
      simp [List.chain'_cons]
    · rw [if_neg hlt]
      simp only [List.map_cons, List.chain'_cons]
      refine ⟨le_of_not_lt hlt, ih { inputRaw := s, outputRaw := max 0 (simulateRoute route s - gas), marginalRaw := if 0 < s - p.inputRaw then (max 0 (simulateRoute route s - gas) - p.outputRaw) / (s - p.inputRaw) else 0 }⟩

theorem buildResponseCurveGo_none_chain (route : List RHop) (gas : ℚ)
    (samples : List ℚ) :
    List.Chain' (· ≤ ·)
      ((buildResponseCurveGo route gas none samples).map (fun q => q.outputRaw)) := by
  cases samples with
  | nil => simp [buildResponseCurveGo]
  | cons s rest =>
    rw [buildResponseCurveGo]
    simp only [List.map_cons]
    exact buildResponseCurveGo_chain route gas rest
      { inputRaw := s, outputRaw := max 0 (simulateRoute route s - gas),
        marginalRaw := if 0 < s then max 0 (simulateRoute route s - gas) / s else 0 }

/-- C5: for every route and positive total input, the recorded
`outputRaw` values of the response curve are non-decreasing from sample
to sample; and whenever a sample's gas-adjusted output falls below the
previously recorded output, that sample is recorded with the previous
output value (and zero marginal) and no further points are produced. -/
theorem buildResponseCurve_monotone {route : List RHop}
    {totalInputRaw gasPerHopRaw : ℚ} (hpos : 0 < totalInputRaw) :
    List.Chain' (· ≤ ·)
      ((buildResponseCurve route totalInputRaw gasPerHopRaw).map
        (fun p => p.outputRaw)) ∧
    (∀ (p : CurvePoint) (s : ℚ) (rest : List ℚ),
      max 0 (simulateRoute route s - route.length * gasPerHopRaw) < p.outputRaw →
      buildResponseCurveGo route (route.length * gasPerHopRaw) (some p) (s :: rest) =
        [{ inputRaw := s, outputRaw := p.outputRaw, marginalRaw := 0 }]) := by
  constructor
  · exact buildResponseCurveGo_none_chain route (route.length * gasPerHopRaw)
      (generateSamplePoints totalInputRaw)
  · intro p s rest hlt
    rw [buildResponseCurveGo]
    dsimp only
    rw [if_pos hlt]
    simp [sub_self, zero_div, ite_self]

theorem buildResponseCurve_monotone_witness :
    (0 : ℚ) < 1000 ∧
    (List.Chain' (· ≤ ·)
      ((buildResponseCurve curveRoute 1000 1).map (fun p => p.outputRaw)) ∧
    (∀ (p : CurvePoint) (s : ℚ) (rest : List ℚ),
      max 0 (simulateRoute curveRoute s - curveRoute.length * 1) < p.outputRaw →
      buildResponseCurveGo curveRoute (curveRoute.length * 1) (some p) (s :: rest) =
        [{ inputRaw := s, outputRaw := p.outputRaw, marginalRaw := 0 }])) :=
  ⟨by decide, @buildResponseCurve_monotone curveRoute 1000 1 (by decide)⟩

theorem getD_nonneg : ∀ {l : List ℚ}, (∀ a ∈ l, 0 ≤ a) → ∀ i : Nat, 0 ≤ l.getD i 0 := by
  intro l
  induction l with
  | nil => intro _ i; simp [List.getD]
  | cons a t ih =>
    intro h i
    cases i with
    | zero => exact h a (List.mem_cons_self _ _)
    | succ i => exact ih (fun b hb => h b (List.mem_cons_of_mem _ hb)) i

theorem applyUpdatesGo_nonneg (curves : List (List CurvePoint)) (effCaps : List ℚ)
    {effTol limit : ℚ} (heff : 0 ≤ effTol) :
    ∀ (updates : List WFUpdate) (alloc margs : List ℚ) (used : ℚ) (sat : List Nat),
      (∀ a ∈ alloc, 0 ≤ a) →
      ∀ a ∈ (applyUpdatesGo curves effCaps effTol limit updates alloc margs used sat).alloc,
        0 ≤ a := by
  intro updates
  induction updates with
  | nil => intro alloc margs used sat h a ha; exact h a ha
  | cons u rest ih =>
    intro alloc margs used sat h a ha
    rw [applyUpdatesGo] at ha
    split_ifs at ha with hskip
    · exact ih alloc margs used sat h a ha
    · have hδ : 0 ≤ min u.delta (max 0 (limit - used)) :=
        le_of_lt (lt_of_le_of_lt heff (not_le.mp hskip))
      have halloc' : ∀ b ∈ alloc.set u.idx
          (alloc.getD u.idx 0 + min u.delta (max 0 (limit - used))), 0 ≤ b := by
        intro b hb
        rcases List.mem_or_eq_of_mem_set hb with hb' | hb'
        · exact h b hb'
        · rw [hb']
          exact add_nonneg (getD_nonneg h u.idx) hδ
      dsimp only at ha
      split_ifs at ha
      all_goals first
      | exact halloc' a ha
      | exact ih _ _ _ _ halloc' a ha

theorem wfApply_alloc_nonneg (P : WFParams) (st : WFState) (totals : WFTotals)
    (limit : ℚ) (heff : 0 ≤ P.effTol)
    (h : ∀ a ∈ st.allocations, 0 ≤ a) :
    ∀ a ∈ (wfApply P st totals limit).allocations, 0 ≤ a := by
  intro a ha
  exact applyUpdatesGo_nonneg P.curves P.effCaps heff totals.updates
    st.allocations st.currentMarginals 0 [] h a ha

theorem wfMainStep_alloc_nonneg (P : WFParams) (st : WFState)
    (heff : 0 ≤ P.effTol) (h : ∀ a ∈ st.allocations, 0 ≤ a) :
    ∀ a ∈ (wfMainStep P st).allocations, 0 ≤ a := by
  intro a ha
  rw [wfMainStep] at ha
  dsimp only at ha
  split_ifs at ha
  all_goals exact wfApply_alloc_nonneg P st _ _ heff h a ha

theorem wfSweep_alloc (P : WFParams) (st : WFState) :
    (wfSweep P st).allocations = st.allocations := rfl

theorem wfLoop_alloc_nonneg (P : WFParams) (heff : 0 ≤ P.effTol) :
    ∀ (fuel : Nat) (st : WFState),
      (∀ a ∈ st.allocations, 0 ≤ a) →
      ∀ a ∈ (wfLoop P fuel st).allocations, 0 ≤ a := by
  intro fuel
  induction fuel with
  | zero => intro st h a ha; exact h a ha
  | succ fuel ih =>
    intro st h a ha
    rw [wfLoop] at ha
    split_ifs at ha with h1
    · exact h a ha
    · dsimp only at ha
      split_ifs at ha with h2 h3
      · refine ih _ ?_ a ha
        exact h
      · exact h a ha
      · refine wfMainStep_alloc_nonneg P _ heff ?_ a ha
        exact h
      · refine ih _ ?_ a ha
        rw [wfSweep_alloc]
        refine wfMainStep_alloc_nonneg P _ heff ?_
        exact h

theorem allocateWaterfillPQ_nonneg (curves : List (List CurvePoint))
    (totalInputRaw : ℚ) (capacities : Option (List ℚ)) (maxIter : Nat) (tol : ℚ) :
    ∀ a ∈ (allocateWaterfillPQ curves totalInputRaw capacities maxIter tol).allocations,
      0 ≤ a := by
  intro a ha
  unfold allocateWaterfillPQ at ha
  split_ifs at ha with h0
  · simp at ha
  · dsimp only at ha
    refine wfLoop_alloc_nonneg _ ?_ maxIter _ ?_ a ha
    · exact le_trans (by norm_num) (le_max_right _ _)
    · intro b hb
      rw [List.mem_map] at hb
      obtain ⟨_, _, hb2⟩ := hb
      rw [← hb2]

theorem sum_map_mul (l : List ℚ) (c : ℚ) :
    (l.map (fun a => a * c)).sum = l.sum * c := by
  induction l with
  | nil => simp
  | cons a t ih => simp [ih, add_mul]

theorem all_zero_of_sum_zero :
    ∀ {l : List ℚ}, (∀ a ∈ l, 0 ≤ a) → l.sum = 0 → ∀ a ∈ l, a = 0 := by
  intro l
  induction l with
  | nil => intro _ _ a ha; simp at ha
  | cons b t ih =>
    intro h hs a ha
    have hb : 0 ≤ b := h b (List.mem_cons_self _ _)
    have ht : ∀ x ∈ t, 0 ≤ x := fun x hx => h x (List.mem_cons_of_mem _ hx)
    have hts : 0 ≤ t.sum := List.sum_nonneg ht
    rw [List.sum_cons] at hs
    have hb0 : b = 0 := by linarith
    have hts0 : t.sum = 0 := by linarith
    rcases List.mem_cons.mp ha with ha' | ha'
    · rw [ha', hb0]
    · exact ih ht hts0 a ha'

theorem normalizeAllocations_balance {alloc : List ℚ} {T minPct : ℚ}
    (hnn : ∀ a ∈ alloc, 0 ≤ a) (hT : 0 ≤ T) :
    (∀ a ∈ normalizeAllocations alloc T minPct, 0 ≤ a) ∧
    ((∀ a ∈ normalizeAllocations alloc T minPct, a = 0) ∨
      |(normalizeAllocations alloc T minPct).sum - T| ≤
        max 1 (T * (1 / 10 ^ 9))) := by
  unfold normalizeAllocations
  split_ifs with hskip
  · exact ⟨hnn, Or.inr hskip.1⟩
  · dsimp only
    have hclean : ∀ a ∈ alloc.map (fun amt =>
        if amt < T * minPct ∧ 0 < amt then 0 else amt), 0 ≤ a := by
      intro a ha
      rw [List.mem_map] at ha
      obtain ⟨b, hb, hb2⟩ := ha
      rw [← hb2]
      split_ifs
      · rfl
      · exact hnn b hb
    have hdust : 0 ≤ (alloc.filter (fun amt =>
        decide (amt < T * minPct) && decide (0 < amt))).sum := by
      apply List.sum_nonneg
      intro a ha
      exact hnn a (List.mem_of_mem_filter ha)
    set clean := alloc.map (fun amt =>
      if amt < T * minPct ∧ 0 < amt then 0 else amt) with hcleandef
    set dust := (alloc.filter (fun amt =>
      decide (amt < T * minPct) && decide (0 < amt))).sum with hdustdef
    have hclean2 : ∀ a ∈ (if 0 < dust then
        clean.set (clean.indexOf (listMaxD clean))
          (clean.getD (clean.indexOf (listMaxD clean)) 0 + dust)
      else clean), 0 ≤ a := by
      split_ifs with hdpos
      · intro a ha
        rcases List.mem_or_eq_of_mem_set ha with ha' | ha'
        · exact hclean a ha'
        · rw [ha']
          exact add_nonneg (getD_nonneg hclean _) hdust
      · exact hclean
    set clean2 := (if 0 < dust then
        clean.set (clean.indexOf (listMaxD clean))
          (clean.getD (clean.indexOf (listMaxD clean)) 0 + dust)
      else clean) with hclean2def
    split_ifs with hzero
    · exact ⟨hclean2, Or.inl (all_zero_of_sum_zero hclean2 hzero)⟩
    · have hspos : 0 < clean2.sum :=
        lt_of_le_of_ne (List.sum_nonneg hclean2) (Ne.symm hzero)
      constructor
      · intro a ha
        rw [List.mem_map] at ha
        obtain ⟨b, hb, hb2⟩ := ha
        rw [← hb2]
        exact mul_nonneg (hclean2 b hb) (div_nonneg hT (le_of_lt hspos))
      · right
        rw [sum_map_mul]
        have : clean2.sum * (T / clean2.sum) = T := by
          field_simp
        rw [this]
        simp only [sub_self, abs_zero]
        exact le_trans zero_le_one (le_max_left _ _)

/-- C4, counterexample: a single route that passes `validateRoute`
(probe output at `1e-6` is nonzero, gas is ignored there) whose
gas-adjusted response curve is identically `0`.  The PQ allocator then
activates nothing and returns the all-zero vector, `normalizeAllocations`
returns it unchanged (its `currentTotal === 0` early return,
line 798), and the final sum misses `totalInputRaw = 1000` by `1000`,
far beyond `max(1, totalInputRaw·1e-9) = 1`. -/
theorem waterfill_balance_counterexample :
    validateRoute curveRoute 3 = true ∧
    normalizeAllocations
      (allocateWaterfillPQ [buildResponseCurve curveRoute 1000 1] 1000 none
        5000 (1 / 10 ^ 10)).allocations 1000 (1 / 1000) = [0] ∧
    ¬(|(normalizeAllocations
        (allocateWaterfillPQ [buildResponseCurve curveRoute 1000 1] 1000 none
          5000 (1 / 10 ^ 10)).allocations 1000 (1 / 1000)).sum - 1000| ≤
      max 1 (1000 * (1 / 10 ^ 9))) := by
  decide

/-- C4, amended: the normalized water-fill allocation vector is always
componentwise non-negative, and either it is identically zero (the
allocator found no usable route — the case the original claim misses) or
its sum is within `max(1, totalInputRaw·1e-9)` of `totalInputRaw`. -/
theorem waterfill_normalized_balance (curves : List (List CurvePoint))
    (capacities : Option (List ℚ)) (maxIter : Nat) (tol minPct : ℚ)
    {T : ℚ} (hT : 0 ≤ T) :
    (∀ a ∈ normalizeAllocations
        (allocateWaterfillPQ curves T capacities maxIter tol).allocations T minPct,
      0 ≤ a) ∧
    ((∀ a ∈ normalizeAllocations
        (allocateWaterfillPQ curves T capacities maxIter tol).allocations T minPct,
      a = 0) ∨
      |(normalizeAllocations
          (allocateWaterfillPQ curves T capacities maxIter tol).allocations T
          minPct).sum - T| ≤ max 1 (T * (1 / 10 ^ 9))) :=
  normalizeAllocations_balance
    (allocateWaterfillPQ_nonneg curves T capacities maxIter tol) hT

theorem waterfill_normalized_balance_witness :
    (0 : ℚ) ≤ 1000 ∧
    ((∀ a ∈ normalizeAllocations
        (allocateWaterfillPQ [buildResponseCurve curveRoute 1000 1] 1000 none
          5000 (1 / 10 ^ 10)).allocations 1000 (1 / 1000), 0 ≤ a) ∧
    ((∀ a ∈ normalizeAllocations
        (allocateWaterfillPQ [buildResponseCurve curveRoute 1000 1] 1000 none
          5000 (1 / 10 ^ 10)).allocations 1000 (1 / 1000), a = 0) ∨
      |(normalizeAllocations
          (allocateWaterfillPQ [buildResponseCurve curveRoute 1000 1] 1000 none
            5000 (1 / 10 ^ 10)).allocations 1000 (1 / 1000)).sum - 1000| ≤
        max 1 (1000 * (1 / 10 ^ 9)))) :=
  ⟨by decide,
   waterfill_normalized_balance [buildResponseCurve curveRoute 1000 1] none
     5000 (1 / 10 ^ 10) (1 / 1000) (by decide)⟩

theorem foldl_preserve {α β : Type} (P : β → Prop) :
    ∀ (l : List α) (f : β → α → β) (init : β), P init →
      (∀ b a, a ∈ l → P b → P (f b a)) → P (l.foldl f init) := by
  intro l
  induction l with
  | nil => intro f init h _; exact h
  | cons a t ih =>
    intro f init h hstep
    rw [List.foldl_cons]
    exact ih f (f init a) (hstep init a (List.mem_cons_self _ _) h)
      (fun b x hx hb => hstep b x (List.mem_cons_of_mem _ hx) hb)

theorem getD_set_of_ne :
    ∀ (l : List ℚ) (i j : Nat) (v : ℚ), i ≠ j →
      (l.set i v).getD j 0 = l.getD j 0 := by
  intro l
  induction l with
  | nil => intro i j v _; rfl
  | cons a t ih =>
    intro i j v hij
    cases i with
    | zero =>
      cases j with
      | zero => exact absurd rfl hij
      | succ j => rfl
    | succ i =>
      cases j with
      | zero => rfl
      | succ j => exact ih i j v (fun h => hij (by rw [h]))

theorem sum_set_getD :
    ∀ (l : List ℚ) (i : Nat) (v : ℚ), i < l.length →
      (l.set i v).sum = l.sum - l.getD i 0 + v := by
  intro l
  induction l with
  | nil => intro i v h; simp at h
  | cons a t ih =>
    intro i v h
    cases i with
    | zero => simp [List.set, List.getD]; ring
    | succ i =>
      rw [List.set]
      simp only [List.sum_cons]
      rw [ih i v (by simpa using h)]
      have : (a :: t).getD (i + 1) 0 = t.getD i 0 := rfl
      rw [this]
      ring

theorem transferAlloc_sum {alloc : List ℚ} {i j : Nat} {δ : ℚ}
    (hij : i ≠ j) (hi : i < alloc.length) (hj : j < alloc.length) :
    (transferAlloc alloc i j δ).sum = alloc.sum := by
  unfold transferAlloc
  dsimp only
  rw [sum_set_getD _ j _ (by rw [List.length_set]; exact hj)]
  rw [sum_set_getD _ i _ hi]
  rw [getD_set_of_ne _ i j _ hij]
  ring

theorem foldAlloc_sum {alloc : List ℚ} {L S : Nat}
    (hLS : L ≠ S) (hL : L < alloc.length) (hS : S < alloc.length) :
    ((alloc.set L (alloc.getD L 0 + alloc.getD S 0)).set S 0).sum = alloc.sum := by
  rw [sum_set_getD _ S _ (by rw [List.length_set]; exact hS)]
  rw [sum_set_getD _ L _ hL]
  rw [getD_set_of_ne _ L S _ hLS]
  ring

theorem mem_recomputeEntries {alloc : List ℚ} {e : HCEntry}
    (he : e ∈ recomputeEntries alloc) : e.routeIdx < alloc.length := by
  have he' := (stableSortBy_perm
    (fun (a b : HCEntry) => decide (b.amountRaw ≤ a.amountRaw)) _).subset he
  rw [List.mem_filterMap] at he'
  obtain ⟨i, hi, hie⟩ := he'
  split_ifs at hie
  · injection hie with hie
    rw [← hie]
    exact List.mem_range.mp hi

theorem scanMoves_ok (routes : List (List RHop)) (gas : ℚ) (alloc : List ℚ)
    (currentOutput δ : ℚ) (entries : List HCEntry) :
    ∀ mv, (scanMoves routes gas alloc currentOutput δ entries).2 = some mv →
      (∃ e ∈ entries, e.routeIdx = mv.1) ∧ mv.2 < routes.length ∧ mv.1 ≠ mv.2 := by
  unfold scanMoves
  refine foldl_preserve
    (fun (acc : ℚ × Option (Nat × Nat)) => ∀ mv : Nat × Nat, acc.2 = some mv →
      (∃ e ∈ entries, e.routeIdx = mv.1) ∧ mv.2 < routes.length ∧ mv.1 ≠ mv.2)
    entries _ (0, none) ?_ ?_
  · intro mv h
    exact Option.noConfusion h
  · intro b ent hent hb
    split_ifs
    · exact hb
    · refine foldl_preserve
        (fun (acc : ℚ × Option (Nat × Nat)) => ∀ mv : Nat × Nat, acc.2 = some mv →
          (∃ e ∈ entries, e.routeIdx = mv.1) ∧ mv.2 < routes.length ∧ mv.1 ≠ mv.2)
        (List.range routes.length) _ b ?_ ?_
      · exact hb
      · intro b2 toIdx hto hb2
        split_ifs with hne hgain
        · exact hb2
        · intro mv h
          injection h with h
          rw [← h]
          exact ⟨⟨ent, hent, rfl⟩, List.mem_range.mp hto, fun hc => hne hc.symm⟩
        · exact hb2

theorem mem_of_getLastQ {α : Type} {l : List α} {a : α}
    (h : l.getLast? = some a) : a ∈ l := by
  cases l with
  | nil => exact Option.noConfusion h
  | cons x t =>
    have hne : x :: t ≠ [] := by simp
    rw [List.getLast?_eq_getLast _ hne] at h
    injection h with h
    rw [← h]
    exact List.getLast_mem hne

theorem hcFold_inv {routes : List (List RHop)} {gas : ℚ} {maxActive : Nat}
    {T : ℚ} {st : HCState} (hinv : HCInv routes.length T st) :
    HCInv routes.length T (hcFold routes gas maxActive st) := by
  obtain ⟨hlen, hent, hsum⟩ := hinv
  unfold hcFold
  split_ifs with hover
  · cases hlast : st.entries.getLast? with
    | none => exact ⟨hlen, hent, hsum⟩
    | some smallest =>
      cases hhead : st.entries.head? with
      | none => exact ⟨hlen, hent, hsum⟩
      | some largest =>
        dsimp only
        split_ifs with hne
        · have hSmem := hent smallest (mem_of_getLastQ hlast)
          have hLmem := hent largest (List.mem_of_mem_head? hhead)
          have hlen2 : ((st.allocationsRaw.set largest.routeIdx
              (st.allocationsRaw.getD largest.routeIdx 0 +
                st.allocationsRaw.getD smallest.routeIdx 0)).set
              smallest.routeIdx 0).length = routes.length := by
            rw [List.length_set, List.length_set]
            exact hlen
          refine ⟨hlen2, ?_, ?_⟩
          · intro e he
            have := mem_recomputeEntries he
            rw [hlen2] at this
            exact this
          · rw [foldAlloc_sum (fun h => hne h.symm)
              (by rw [hlen]; exact hLmem) (by rw [hlen]; exact hSmem)]
            exact hsum
        · exact ⟨hlen, hent, hsum⟩
  · exact ⟨hlen, hent, hsum⟩

theorem hcStep_inv {routes : List (List RHop)} {gas δ : ℚ}
    {maxActive maxIterations : Nat} {T : ℚ} {st : HCState}
    (hinv : HCInv routes.length T st) :
    HCInv routes.length T (hcStep routes gas δ maxActive maxIterations st) := by
  obtain ⟨hlen, hent, hsum⟩ := hinv
  unfold hcStep
  split_ifs with hcond
  · dsimp only
    cases hscan : (scanMoves routes gas st.allocationsRaw st.currentOutput δ
        st.entries).2 with
    | none => exact ⟨hlen, hent, hsum⟩
    | some mv =>
      split_ifs with hgain
      · obtain ⟨⟨e, hemem, heidx⟩, hmv2, hmvne⟩ :=
          scanMoves_ok routes gas st.allocationsRaw st.currentOutput δ
            st.entries mv hscan
      
        have hmv1 : mv.1 < routes.length := by rw [← heidx]; exact hent e hemem
        have htlen : (transferAlloc st.allocationsRaw mv.1 mv.2 δ).length =
            routes.length := by
          unfold transferAlloc
          dsimp only
          rw [List.length_set, List.length_set]
          exact hlen
        apply hcFold_inv
        refine ⟨htlen, ?_, ?_⟩
        · intro e' he'
          have := mem_recomputeEntries he'
          rw [htlen] at this
          exact this
        · rw [transferAlloc_sum hmvne (by rw [hlen]; exact hmv1)
            (by rw [hlen]; exact hmv2)]
          exact hsum
      · exact ⟨hlen, hent, hsum⟩
  · exact ⟨hlen, hent, hsum⟩

/-- C10: throughout the hill-climb loop the total allocation is
conserved: starting from everything on route 0, after any number of loop
passes the allocation vector still sums to `totalInputRaw` — trial
moves are evaluated on a transferred copy, an accepted move transfers
exactly `deltaRaw` between two distinct routes, and the overflow fold
moves the smallest allocation onto the largest (distinct) route. -/
theorem hillClimb_sum_invariant {routes : List (List RHop)} {gas δ T : ℚ}
    {maxActive maxIterations : Nat} (h1 : 0 < routes.length) :
    ∀ n : Nat,
      (hcIterate routes gas δ maxActive maxIterations n
        (hcInit routes T gas)).allocationsRaw.sum = T := by
  have hinit : HCInv routes.length T (hcInit routes T gas) := by
    refine ⟨?_, ?_, ?_⟩
    · show ((List.replicate routes.length (0 : ℚ)).set 0 T).length = routes.length
      rw [List.length_set, List.length_replicate]
    · intro e he
      have he' : e ∈ [({ routeIdx := 0, amountRaw := T } : HCEntry)] := he
      rw [List.mem_singleton] at he'
      rw [he']
      exact h1
    · show ((List.replicate routes.length (0 : ℚ)).set 0 T).sum = T
      rw [sum_set_getD _ 0 T (by rw [List.length_replicate]; exact h1)]
      have h2 : (List.replicate routes.length (0 : ℚ)).sum = 0 := by
        simp [List.sum_replicate]
      have h3 : (List.replicate routes.length (0 : ℚ)).getD 0 0 = 0 := by
        cases hr : List.replicate routes.length (0 : ℚ) with
        | nil => rfl
        | cons x t =>
          have : x = 0 := by
            have hx : x ∈ List.replicate routes.length (0 : ℚ) := by
              rw [hr]; exact List.mem_cons_self x t
            exact List.eq_of_mem_replicate hx
          rw [this]
          rfl
      rw [h2, h3]
      ring
  have hiter : ∀ (n : Nat) (st : HCState), HCInv routes.length T st →
      HCInv routes.length T
        (hcIterate routes gas δ maxActive maxIterations n st) := by
    intro n
    induction n with
    | zero => exact fun st h => h
    | succ n ih =>
      intro st h
      exact ih _ (hcStep_inv h)
  intro n
  exact (hiter n _ hinit).2.2

theorem hillClimb_sum_invariant_witness :
    0 < ([curveRoute, c10Route2] : List (List RHop)).length ∧
    (∀ n : Nat,
      (hcIterate [curveRoute, c10Route2] 0 1 10 3 n
        (hcInit [curveRoute, c10Route2] 1000 0)).allocationsRaw.sum = 1000) :=
  ⟨by decide,
   @hillClimb_sum_invariant [curveRoute, c10Route2] 0 1 1000 10 3 (by decide)⟩

